import Mathlib

/-!
# Verification of the mini-redis RESP codec, store and command layer

A shallow embedding of the Rust sources of `mini-redis` (the RESP frame
codec in `src/connection/frame.rs` and `src/connection/connect.rs`, the
key-value store in `src/storage/store.rs`, the command layer in
`src/cmd/*.rs`, and the accept loop in `src/server/listener.rs`),
together with proofs about them.

Modelling conventions:
* Rust byte buffers (`Bytes`, `&[u8]`, the contents of a `String`) are
  `List Nat` with every element a byte value; a Rust `String` is its
  UTF-8 byte list (validity is carried as a hypothesis where needed).
* A `std::io::Cursor<&[u8]>` at position `p` is represented by the list
  suffix starting at `p`; a function that advances the cursor returns
  the remaining suffix.  The position of the cursor is recovered as
  `original length - suffix length`.
* `Instant` and `Duration` are `Nat` (an instant is a point on a
  discrete time line, a duration a number of the same ticks);
  `Instant::now()` becomes an explicit `now` argument.
* Machine integers (`u64`, `usize`) are `Nat`; where the source checks
  a `u64` range the bound `2 ^ 64` appears explicitly.  The
  `usize::try_from(u64)` conversions in `frame.rs` are the identity
  (64-bit target).
-/

namespace MiniRedis

/-- Byte strings (`bytes::Bytes`, `&[u8]`, and the UTF-8 contents of a
Rust `String`). -/
abbrev Bytes := List Nat

/-- The UTF-8 bytes of an ASCII string literal (used for the literal
byte strings appearing in the source; all of them are ASCII, where the
UTF-8 encoding is the list of code points). -/
def strBytes (s : String) : Bytes := s.data.map Char.toNat

/-- Modelled from the spec: `src/error.rs` is not among the provided
sources (only `src/lib.rs` declares `pub mod error`).  Section 7 of the
spec lists the parse-error kinds `Incomplete`, `EndOfStream`,
`ParseArrayFrame`, `Parse(msg)` and `Unimplemented`; the `?`-conversion
of `std::string::FromUtf8Error` in `Frame::parse` is represented by a
dedicated constructor `Utf8`.  Which constructor a UTF-8 failure maps to
is irrelevant below: no theorem distinguishes `Utf8` from another
non-`Incomplete` error. -/
inductive MiniRedisParseError where
  | Incomplete : MiniRedisParseError
  | EndOfStream : MiniRedisParseError
  | ParseArrayFrame : MiniRedisParseError
  | Parse (msg : String) : MiniRedisParseError
  | Unimplemented : MiniRedisParseError
  | Utf8 : MiniRedisParseError
deriving DecidableEq, Repr

/-- RESP frames (`Frame` in `src/connection/frame.rs`).  `simple` and
`error` hold the UTF-8 bytes of the Rust `String`. -/
inductive Frame where
  | simple (s : Bytes) : Frame
  | error (s : Bytes) : Frame
  | integer (n : Nat) : Frame
  | bulk (b : Bytes) : Frame
  | null : Frame
  | array (elems : List Frame) : Frame
deriving Repr

/-! ## Cursor primitives (`frame.rs` helpers) -/

/-- `get_line`: scan for the first CRLF pair; return the bytes before it
and the suffix after it.  Mirrors the scan in `get_line` of `frame.rs`
(which looks for `\r` at `i` and `\n` at `i + 1`), expressed on the
remaining suffix of the buffer. -/
def splitLine : List Nat → Option (List Nat × List Nat)
  | a :: b :: rest =>
    if a = 13 ∧ b = 10 then some ([], rest)
    else
      match splitLine (b :: rest) with
      | some (line, r) => some (a :: line, r)
      | none => none
  | _ => none

/-- `get_line` with the `Incomplete` error of the source. -/
def get_line (s : List Nat) : Except MiniRedisParseError (List Nat × List Nat) :=
  match splitLine s with
  | some p => .ok p
  | none => .error .Incomplete

/-- `skip(src, n)`: error `Incomplete` unless `n` bytes remain. -/
def skip (s : List Nat) (n : Nat) : Except MiniRedisParseError (List Nat) :=
  if s.length < n then .error .Incomplete else .ok (s.drop n)

/-- `get_u8`: consume one byte. -/
def get_u8 : List Nat → Except MiniRedisParseError (Nat × List Nat)
  | [] => .error .Incomplete
  | b :: rest => .ok (b, rest)

/-- `peek_u8`: look at one byte without consuming it. -/
def peek_u8 : List Nat → Except MiniRedisParseError Nat
  | [] => .error .Incomplete
  | b :: _ => .ok b

/-- Is `b` an ASCII decimal digit? -/
def isDigit (b : Nat) : Bool := 48 ≤ b && b ≤ 57

/-- Decimal value of a digit string (most significant first). -/
def decVal (l : List Nat) : Nat := l.foldl (fun acc b => acc * 10 + (b - 48)) 0

/-- Modelled from the spec: the `atoi` crate is a dependency and not
part of the repository sources.  Following its documentation and the
spec's reading (`:<decimal>\r\n` → "decimal digits, u64 range"),
`atoi::<u64>` succeeds exactly on a non-empty all-digit slice whose
value fits in a `u64` (the crate's checked arithmetic rejects
overflow), and fails on an empty slice or any non-digit byte. -/
def atoiU64 (l : List Nat) : Option Nat :=
  if l ≠ [] ∧ l.all isDigit ∧ decVal l < 2 ^ 64 then some (decVal l) else none

/-- `get_decimal`: a full line parsed by `atoi::<u64>`. -/
def get_decimal (s : List Nat) : Except MiniRedisParseError (Nat × List Nat) :=
  match get_line s with
  | .ok (line, rest) =>
    match atoiU64 line with
    | some v => .ok (v, rest)
    | none => .error (.Parse "protocol error; invalid frame format to get decimal")
  | .error e => .error e

/-- A successful `splitLine` decomposes its input as the line, the CRLF
pair, and the remainder. -/
theorem splitLine_spec : ∀ {s line r : List Nat},
    splitLine s = some (line, r) → s = line ++ 13 :: 10 :: r := by
  intro s
  induction s with
  | nil => intro l r h; simp [splitLine] at h
  | cons a t ih =>
    intro l r h
    cases t with
    | nil => simp [splitLine] at h
    | cons b rest =>
      rw [splitLine] at h
      split at h
      · rename_i hcr
        simp only [Option.some.injEq, Prod.mk.injEq] at h
        obtain ⟨rfl, rfl⟩ := h
        obtain ⟨rfl, rfl⟩ := hcr
        rfl
      · cases h2 : splitLine (b :: rest) with
        | none => rw [h2] at h; simp at h
        | some p =>
          obtain ⟨line', r'⟩ := p
          rw [h2] at h
          simp only [Option.some.injEq, Prod.mk.injEq] at h
          obtain ⟨rfl, rfl⟩ := h
          have := ih h2
          simp [List.cons_append, ← this]

theorem splitLine_length {s line r : List Nat}
    (h : splitLine s = some (line, r)) : r.length + 2 ≤ s.length := by
  have := splitLine_spec h
  subst this
  simp only [List.length_append, List.length_cons]
  omega

theorem get_line_length {s line r : List Nat}
    (h : get_line s = .ok (line, r)) : r.length + 2 ≤ s.length := by
  unfold get_line at h
  cases h2 : splitLine s with
  | none => rw [h2] at h; simp at h
  | some p =>
    rw [h2] at h
    simp only [Except.ok.injEq] at h
    subst h
    exact splitLine_length h2

theorem get_decimal_length {s : List Nat} {v : Nat} {r : List Nat}
    (h : get_decimal s = .ok (v, r)) : r.length + 2 ≤ s.length := by
  unfold get_decimal at h
  split at h
  · rename_i line rest h2
    split at h
    · simp only [Except.ok.injEq, Prod.mk.injEq] at h
      obtain ⟨rfl, rfl⟩ := h
      exact get_line_length h2
    · simp at h
  · simp at h

theorem skip_length {s : List Nat} {n : Nat} {r : List Nat}
    (h : skip s n = .ok r) : r.length + n ≤ s.length ∧ r = s.drop n := by
  unfold skip at h
  split at h
  · simp at h
  · rename_i hn
    simp only [Except.ok.injEq] at h
    subst h
    refine ⟨?_, rfl⟩
    simp only [List.length_drop]
    omega

/-! ## `Frame::check` and `Frame::parse`

The two-phase decoder of `frame.rs`.  Both functions walk the buffer
recursively; the recursion is not structural (an array iterates its
checker over the suffix left by the previous element), so the
implementations below bundle the result with the bound used for
termination: a successfully checked or parsed frame consumes at least
one byte. -/

mutual

/-- `Frame::check` (`frame.rs`): validate one frame, returning the
remaining suffix (the cursor after the frame). -/
def checkAux : (s : List Nat) → Except MiniRedisParseError {r : List Nat // r.length < s.length}
  | [] => .error .Incomplete
  | b :: rest =>
    if b = 43 then
      -- b'+' => { get_line(src)?; Ok(()) }
      match h : get_line rest with
      | .ok (_, r) => .ok ⟨r, by have := get_line_length h; simp; omega⟩
      | .error e => .error e
    else if b = 45 then
      -- b'-' => { get_line(src)?; Ok(()) }
      match h : get_line rest with
      | .ok (_, r) => .ok ⟨r, by have := get_line_length h; simp; omega⟩
      | .error e => .error e
    else if b = 58 then
      -- b':' => { let _ = get_decimal(src)?; Ok(()) }
      match h : get_decimal rest with
      | .ok (_, r) => .ok ⟨r, by have := get_decimal_length h; simp; omega⟩
      | .error e => .error e
    else if b = 36 then
      -- b'$' => null-bulk skip or length-prefixed skip
      match peek_u8 rest with
      | .error e => .error e
      | .ok pb =>
        if pb = 45 then
          match h : skip rest 4 with
          | .ok r => .ok ⟨r, by have := (skip_length h).1; simp; omega⟩
          | .error e => .error e
        else
          match h : get_decimal rest with
          | .ok (len, r1) =>
            match h2 : skip r1 (len + 2) with
            | .ok r =>
              .ok ⟨r, by
                have := get_decimal_length h
                have := (skip_length h2).1
                simp
                omega⟩
            | .error e => .error e
          | .error e => .error e
    else if b = 42 then
      -- b'*' => { let len = get_decimal(src)?; for _ in 0..len { Frame::check(src)?; } }
      match h : get_decimal rest with
      | .ok (len, r1) =>
        match checkManyAux len r1 with
        | .ok ⟨r, hr⟩ =>
          .ok ⟨r, by have := get_decimal_length h; simp; omega⟩
        | .error e => .error e
      | .error e => .error e
    else
      .error (.Parse ("protocol error; invalid frame type byte `" ++ toString b ++ "`"))
termination_by s => (s.length, 0)
decreasing_by
  have := get_decimal_length h
  apply Prod.Lex.left
  simp only [List.length_cons]
  omega

/-- The `for _ in 0..len { Frame::check(src)?; }` loop of the array
branch of `Frame::check`. -/
def checkManyAux : (n : Nat) → (s : List Nat) →
    Except MiniRedisParseError {r : List Nat // r.length ≤ s.length}
  | 0, s => .ok ⟨s, le_refl _⟩
  | n + 1, s =>
    match checkAux s with
    | .ok ⟨s', h'⟩ =>
      match checkManyAux n s' with
      | .ok ⟨r, hr⟩ => .ok ⟨r, by omega⟩
      | .error e => .error e
    | .error e => .error e
termination_by n s => (s.length, n + 1)
decreasing_by
  · simp_wf
    apply Prod.Lex.right
    omega
  · simp_wf
    apply Prod.Lex.left
    omega

end

/-- `Frame::check`, exposed on plain lists: on success, the remaining
suffix of the buffer (equivalently, the end position of the frame). -/
def Frame.check (s : List Nat) : Except MiniRedisParseError (List Nat) :=
  (checkAux s).map Subtype.val

/-! ## UTF-8 validation (`String::from_utf8`) -/

/-- Is the `i`-th byte of `l` (0 when out of range) within
`[lo, hi]`?  Helper for the UTF-8 continuation-byte checks. -/
def byteRange (l : List Nat) (i lo hi : Nat) : Bool :=
  decide (lo ≤ l.getD i 0) && decide (l.getD i 0 ≤ hi)

/-- Strict UTF-8 validity of a byte list, as checked by Rust's
`String::from_utf8`: the standard table of leading-byte ranges,
rejecting overlong encodings, surrogates and code points above
U+10FFFF. -/
def validUtf8 : List Nat → Bool
  | [] => true
  | b :: rest =>
    if b < 128 then validUtf8 rest
    else if 194 ≤ b ∧ b ≤ 223 then
      decide (1 ≤ rest.length) && byteRange rest 0 128 191 && validUtf8 (rest.drop 1)
    else if b = 224 then
      decide (2 ≤ rest.length) && byteRange rest 0 160 191 && byteRange rest 1 128 191 &&
        validUtf8 (rest.drop 2)
    else if (225 ≤ b ∧ b ≤ 236) ∨ b = 238 ∨ b = 239 then
      decide (2 ≤ rest.length) && byteRange rest 0 128 191 && byteRange rest 1 128 191 &&
        validUtf8 (rest.drop 2)
    else if b = 237 then
      decide (2 ≤ rest.length) && byteRange rest 0 128 159 && byteRange rest 1 128 191 &&
        validUtf8 (rest.drop 2)
    else if b = 240 then
      decide (3 ≤ rest.length) && byteRange rest 0 144 191 && byteRange rest 1 128 191 &&
        byteRange rest 2 128 191 && validUtf8 (rest.drop 3)
    else if 241 ≤ b ∧ b ≤ 243 then
      decide (3 ≤ rest.length) && byteRange rest 0 128 191 && byteRange rest 1 128 191 &&
        byteRange rest 2 128 191 && validUtf8 (rest.drop 3)
    else if b = 244 then
      decide (3 ≤ rest.length) && byteRange rest 0 128 143 && byteRange rest 1 128 191 &&
        byteRange rest 2 128 191 && validUtf8 (rest.drop 3)
    else false
termination_by l => l.length
decreasing_by all_goals (simp only [List.length_drop, List.length_cons]; omega)

/-- `String::from_utf8`, on the byte-list model of Rust strings: the
identity on valid UTF-8, an error otherwise. -/
def fromUtf8 (l : List Nat) : Option Bytes :=
  if validUtf8 l then some l else none

/-- An all-ASCII byte list is valid UTF-8. -/
theorem validUtf8_of_ascii : ∀ {l : List Nat}, (∀ b ∈ l, b < 128) → validUtf8 l = true := by
  intro l
  induction l with
  | nil => intro _; rw [validUtf8]
  | cons b rest ih =>
    intro h
    have hb : b < 128 := h b (List.mem_cons_self ..)
    rw [validUtf8, if_pos hb]
    exact ih fun x hx => h x (List.mem_cons_of_mem _ hx)

/-! ## `Frame::parse` -/

mutual

/-- `Frame::parse` (`frame.rs`): parse one frame from the buffer,
returning the frame and the remaining suffix (bundled with the bound
used for termination). -/
def parseAux : (s : List Nat) →
    Except MiniRedisParseError {p : Frame × List Nat // p.2.length < s.length}
  | [] => .error .Incomplete
  | b :: rest =>
    if b = 43 then
      -- b'+' => String::from_utf8(get_line(src)?.to_vec())
      match h : get_line rest with
      | .ok (line, r) =>
        match fromUtf8 line with
        | some s => .ok ⟨(.simple s, r), by have := get_line_length h; simp; omega⟩
        | none => .error .Utf8
      | .error e => .error e
    else if b = 45 then
      -- b'-' => String::from_utf8(get_line(src)?.to_vec())
      match h : get_line rest with
      | .ok (line, r) =>
        match fromUtf8 line with
        | some s => .ok ⟨(.error s, r), by have := get_line_length h; simp; omega⟩
        | none => .error .Utf8
      | .error e => .error e
    else if b = 58 then
      -- b':' => Frame::Integer(get_decimal(src)?)
      match h : get_decimal rest with
      | .ok (num, r) => .ok ⟨(.integer num, r), by have := get_decimal_length h; simp; omega⟩
      | .error e => .error e
    else if b = 36 then
      -- b'$' => null bulk (line must be exactly "-1") or length-prefixed data
      match peek_u8 rest with
      | .error e => .error e
      | .ok pb =>
        if pb = 45 then
          match h : get_line rest with
          | .ok (line, r) =>
            if line = [45, 49] then
              .ok ⟨(.null, r), by have := get_line_length h; simp; omega⟩
            else
              .error (.Parse "protocol error; invalid frame format")
          | .error e => .error e
        else
          match h : get_decimal rest with
          | .ok (len, r1) =>
            -- let n = len + 2; if src.remaining() < n { Incomplete }
            if hlen : r1.length < len + 2 then .error .Incomplete
            else
              .ok ⟨(.bulk (r1.take len), r1.drop (len + 2)), by
                have := get_decimal_length h
                simp
                omega⟩
          | .error e => .error e
    else if b = 42 then
      -- b'*' => parse len elements
      match h : get_decimal rest with
      | .ok (len, r1) =>
        match parseManyAux len r1 with
        | .ok ⟨(elems, r), hr⟩ =>
          .ok ⟨(.array elems, r), by
            have h1 := get_decimal_length h
            have h2 : r.length ≤ r1.length := hr
            show r.length < rest.length + 1
            omega⟩
        | .error e => .error e
      | .error e => .error e
    else
      .error .Unimplemented
termination_by s => (s.length, 0)
decreasing_by
  have := get_decimal_length h
  apply Prod.Lex.left
  simp only [List.length_cons]
  omega

/-- The `for _ in 0..len { out.push(Frame::parse(src)?); }` loop of the
array branch of `Frame::parse`. -/
def parseManyAux : (n : Nat) → (s : List Nat) →
    Except MiniRedisParseError {p : List Frame × List Nat // p.2.length ≤ s.length}
  | 0, s => .ok ⟨([], s), le_refl _⟩
  | n + 1, s =>
    match parseAux s with
    | .ok ⟨(f, s'), h'⟩ =>
      match parseManyAux n s' with
      | .ok ⟨(fs, r), hr⟩ => .ok ⟨(f :: fs, r), by simp at h' hr ⊢; omega⟩
      | .error e => .error e
    | .error e => .error e
termination_by n s => (s.length, n + 1)
decreasing_by
  · apply Prod.Lex.right
    omega
  · apply Prod.Lex.left
    simp at h'
    omega

end

/-- `Frame::parse`, exposed on plain lists: on success, the frame and
the remaining suffix of the buffer. -/
def Frame.parse (s : List Nat) : Except MiniRedisParseError (Frame × List Nat) :=
  (parseAux s).map Subtype.val

/-! ## The encoder (`Connection::write_frame` / `write_value` /
`write_decimal` in `connect.rs`)

The encoder writes into the buffered writer; the model returns the byte
list written.  `write_value` returns `Unimplemented` on a nested array
(the `MiniRedisConnectionError` wrapper around the parse error adds
nothing observable and is dropped). -/

/-- Decimal digit bytes of `v`, least significant first. -/
def digitsRev (v : Nat) : List Nat :=
  if v = 0 then [] else (v % 10 + 48) :: digitsRev (v / 10)
decreasing_by exact Nat.div_lt_self (Nat.pos_of_ne_zero (by assumption)) (by omega)

/-- The decimal representation of `v` written by `write!(&mut buf, "{}", val)`:
most significant digit first, `"0"` for zero. -/
def natDecimal (v : Nat) : List Nat :=
  if v = 0 then [48] else (digitsRev v).reverse

/-- `write_decimal`: the decimal representation followed by CRLF. -/
def write_decimal (v : Nat) : List Nat := natDecimal v ++ [13, 10]

/-- `Connection::write_value`: serialize one non-array frame. -/
def write_value : Frame → Except MiniRedisParseError (List Nat)
  | .simple s => .ok (43 :: (s ++ [13, 10]))
  | .error s => .ok (45 :: (s ++ [13, 10]))
  | .integer v => .ok (58 :: write_decimal v)
  | .null => .ok [36, 45, 49, 13, 10]
  | .bulk b => .ok (36 :: (write_decimal b.length ++ b ++ [13, 10]))
  | .array _ => .error .Unimplemented

/-- `Connection::write_frame`: an array is written as `*<n>\r\n`
followed by each element through `write_value`; any other frame goes
through `write_value` directly. -/
def write_frame : Frame → Except MiniRedisParseError (List Nat)
  | .array elems =>
    match elems.mapM write_value with
    | .ok parts => .ok (42 :: (write_decimal elems.length ++ parts.flatten))
    | .error e => .error e
  | f => write_value f

/-! ## The store (`src/storage/store.rs`)

* `HashMap<K, V>` is an association list with pairwise-distinct keys
  (lookup / insert-replacing / remove-by-key see only the map it
  represents; key distinctness is the container's own invariant).
* `BTreeMap<(Instant, u64), String>` is an association list sorted
  strictly by key in the lexicographic order on `(Instant, u64)` — the
  order `BTreeMap` maintains — so `first_key_value` and `keys().next()`
  are `head?`.
* `broadcast::Sender<Bytes>` is reduced to the observable its callers
  use: the number of live receivers (`subscribe` increments it, `send`
  reports it, `send` errors when it is zero) and the channel capacity.
* `Instant::now()` is an explicit `now : Nat` argument to `set` and
  `purge_expired_keys`. -/

/-- Association-list lookup (`HashMap::get` / `BTreeMap` key lookup). -/
def mapLookup {α β : Type} [DecidableEq α] (k : α) : List (α × β) → Option β
  | [] => none
  | (a, b) :: t => if a = k then some b else mapLookup k t

/-- Association-list insert-or-replace (`HashMap::insert`; the previous
value, which Rust's `insert` returns, is recovered with `mapLookup`
before the insert). -/
def mapInsert {α β : Type} [DecidableEq α] (k : α) (v : β) : List (α × β) → List (α × β)
  | [] => [(k, v)]
  | (a, b) :: t => if a = k then (k, v) :: t else (a, b) :: mapInsert k v t

/-- Association-list removal of a key (`HashMap::remove` /
`BTreeMap::remove`). -/
def mapRemove {α β : Type} [DecidableEq α] (k : α) : List (α × β) → List (α × β)
  | [] => []
  | (a, b) :: t => if a = k then t else (a, b) :: mapRemove k t

/-- The strict lexicographic order on `(Instant, u64)` pairs: the order
of the `BTreeMap` expiration index ("Ordering is lexicographic on the
pair, so earliest deadline is the minimum"). -/
def lexLt (p q : Nat × Nat) : Prop := p.1 < q.1 ∨ (p.1 = q.1 ∧ p.2 < q.2)

instance : DecidablePred fun p : (Nat × Nat) × (Nat × Nat) => lexLt p.1 p.2 := by
  intro p
  unfold lexLt
  infer_instance

instance (p q : Nat × Nat) : Decidable (lexLt p q) := by
  unfold lexLt
  infer_instance

/-- Sorted insert into the expiration index (`BTreeMap::insert`:
replaces the value on an equal key, otherwise places the new pair at
its ordered position). -/
def btInsert (k : Nat × Nat) (v : String) : List ((Nat × Nat) × String) →
    List ((Nat × Nat) × String)
  | [] => [(k, v)]
  | (a, b) :: t =>
    if lexLt k a then (k, v) :: (a, b) :: t
    else if k = a then (k, v) :: t
    else (a, b) :: btInsert k v t

/-- A key-value entry of the store (`Entry` in `store.rs`). -/
structure Entry where
  id : Nat
  data : Bytes
  expires_at : Option Nat
deriving DecidableEq, Repr

/-- A broadcast channel handle (`tokio::sync::broadcast::Sender<Bytes>`),
reduced to its observable state: the number of live receivers and the
capacity it was created with. -/
structure Sender where
  receivers : Nat
  capacity : Nat
deriving DecidableEq, Repr

/-- `Sender::send`: `Ok(receiver_count)` when there is at least one
receiver, `Err` otherwise (tokio's `broadcast::Sender::send` errors when
there are no active receivers).  The message value is accepted but the
channel's message queue is not part of the observable state. -/
def Sender.send (tx : Sender) (_value : Bytes) : Option Nat :=
  if tx.receivers = 0 then none else some tx.receivers

/-- The shared store state (`Store` in `store.rs`). -/
structure Store where
  entries : List (String × Entry)
  pub_sub : List (String × Sender)
  expirations : List ((Nat × Nat) × String)
  next_id : Nat
  shutdown : Bool
deriving DecidableEq, Repr

namespace Store

/-- `Store::new`. -/
def new : Store := ⟨[], [], [], 0, false⟩

/-- `Store::next_expiration`: the instant of the minimum key of the
expiration index. -/
def next_expiration (s : Store) : Option Nat :=
  s.expirations.head?.map (fun p => p.1.1)

/-- `Store::get`: a clone of `entries[key].data`.  Takes `&self`: the
state is not touched. -/
def get (s : Store) (key : String) : Option Bytes :=
  (mapLookup key s.entries).map (fun e => e.data)

/-- `Store::set`: assign a fresh id, optionally register the expiration
(computing the notify flag against the index before the insertion),
insert the entry, then drop the overwritten entry's index pair. -/
def set (s : Store) (now : Nat) (key : String) (value : Bytes)
    (expire : Option Nat) : Store × Bool :=
  let id := s.next_id
  -- the `expire.map(|duration| ...)` closure: compute `when`, the
  -- notify flag (`expiration > when`, `unwrap_or(true)`), and insert
  -- the new index pair — all before the entry insert below
  let (notify, exps, expires_at) :=
    match expire with
    | some duration =>
      let when := now + duration
      let notify :=
        match s.next_expiration with
        | some expiration => decide (when < expiration)
        | none => true
      (notify, btInsert (when, id) key s.expirations, some when)
    | none => (false, s.expirations, none)
  let prev := mapLookup key s.entries
  let entries := mapInsert key ⟨id, value, expires_at⟩ s.entries
  let exps :=
    match prev with
    | some prevEntry =>
      match prevEntry.expires_at with
      | some when => mapRemove (when, prevEntry.id) exps
      | none => exps
    | none => exps
  (⟨entries, s.pub_sub, exps, s.next_id + 1, s.shutdown⟩, notify)

/-- `Store::del`: remove the entry and, when it had a deadline, its
index pair; 1 when the key was present, 0 otherwise. -/
def del (s : Store) (key : String) : Store × Nat :=
  match mapLookup key s.entries with
  | some entry =>
    let exps :=
      match entry.expires_at with
      | some expires_at => mapRemove (expires_at, entry.id) s.expirations
      | none => s.expirations
    (⟨mapRemove key s.entries, s.pub_sub, exps, s.next_id, s.shutdown⟩, 1)
  | none => (s, 0)

/-- `Store::subscribe`: subscribe to an existing broadcaster (one more
receiver on the same channel) or create a fresh one with capacity 1024
whose returned receiver is its first. -/
def subscribe (s : Store) (key : String) : Store :=
  match mapLookup key s.pub_sub with
  | some tx =>
    { s with pub_sub := mapInsert key { tx with receivers := tx.receivers + 1 } s.pub_sub }
  | none =>
    { s with pub_sub := mapInsert key ⟨1, 1024⟩ s.pub_sub }

/-- `Store::publish`: takes `&self`; the state component of the result
is the unchanged store, the second component the receiver count `send`
reported (`tx.send(value).unwrap_or(0)`, and 0 when the channel is
absent). -/
def publish (s : Store) (key : String) (value : Bytes) : Store × Nat :=
  match mapLookup key s.pub_sub with
  | some tx =>
    match tx.send value with
    | some n => (s, n)
    | none => (s, 0)
  | none => (s, 0)

/-- The `while let Some((&(when, id), key)) = first_key_value()` loop of
`Store::purge_expired_keys`. -/
def purgeLoop (now : Nat) (entries : List (String × Entry))
    (exps : List ((Nat × Nat) × String)) :
    List (String × Entry) × List ((Nat × Nat) × String) × Option Nat :=
  match exps with
  | [] => (entries, exps, none)
  | ((when, id), key) :: tl =>
    if now < when then (entries, ((when, id), key) :: tl, some when)
    else
      purgeLoop now (mapRemove key entries) (mapRemove (when, id) (((when, id), key) :: tl))
termination_by exps.length
decreasing_by
  simp [mapRemove]

/-- `Store::purge_expired_keys`. -/
def purge_expired_keys (s : Store) (now : Nat) : Store × Option Nat :=
  if s.shutdown then (s, none)
  else
    let (entries, exps, ret) := purgeLoop now s.entries s.expirations
    (⟨entries, s.pub_sub, exps, s.next_id, s.shutdown⟩, ret)

/-- `Store::set_shutdown`. -/
def set_shutdown (s : Store) (value : Bool) : Store := { s with shutdown := value }

/-- `Store::is_shutdown`. -/
def is_shutdown (s : Store) : Bool := s.shutdown

end Store

/-! ## The parse cursor (`src/connection/parse.rs`)

`Parse` wraps the `vec::IntoIter<Frame>` of an array frame; the model is
the list of frames not yet consumed.  Each cursor operation returns its
result together with the rest of the iterator. -/

/-- ASCII lowercasing of a byte.  `String::to_lowercase` agrees with
per-byte ASCII lowercasing on ASCII strings; the theorems that depend on
the lowercased command name restrict the name to ASCII bytes. -/
def asciiLower (b : Nat) : Nat := if 65 ≤ b ∧ b ≤ 90 then b + 32 else b

/-- `to_lowercase` on the byte-list model of an ASCII string. -/
def bytesLower (l : Bytes) : Bytes := l.map asciiLower

namespace Parse

/-- `Parse::new`: the frame must be an array. -/
def new : Frame → Except MiniRedisParseError (List Frame)
  | .array elems => .ok elems
  | _ => .error (.Parse "protocol error; expected array")

/-- The string extraction of `Parse::next_string` applied to a single
frame: a `Simple` is returned as is, a `Bulk` after UTF-8 validation,
anything else is a protocol error. -/
def frameToString : Frame → Except MiniRedisParseError Bytes
  | .simple s => .ok s
  | .bulk data =>
    match fromUtf8 data with
    | some s => .ok s
    | none => .error (.Parse "protocol error; invalid string")
  | _ => .error (.Parse "protocol error; expected simple frame or bulk frame")

/-- `Parse::next_string`: `next()?` then string extraction. -/
def next_string : List Frame → Except MiniRedisParseError (Bytes × List Frame)
  | [] => .error .EndOfStream
  | f :: t =>
    match frameToString f with
    | .ok s => .ok (s, t)
    | .error e => .error e

/-- `Parse::next_bytes`: `Simple` and `Bulk` both yield raw bytes. -/
def next_bytes : List Frame → Except MiniRedisParseError (Bytes × List Frame)
  | [] => .error .EndOfStream
  | .simple s :: t => .ok (s, t)
  | .bulk data :: t => .ok (data, t)
  | _ :: _ => .error (.Parse "protocol error; expected simple frame or bulk frame")

/-- `Parse::next_int`: an `Integer` directly, a `Simple`/`Bulk` through
`atoi::<u64>`. -/
def next_int : List Frame → Except MiniRedisParseError (Nat × List Frame)
  | [] => .error .EndOfStream
  | .integer v :: t => .ok (v, t)
  | .simple data :: t =>
    match atoiU64 data with
    | some v => .ok (v, t)
    | none => .error (.Parse "protocol error; invalid number")
  | .bulk data :: t =>
    match atoiU64 data with
    | some v => .ok (v, t)
    | none => .error (.Parse "protocol error; invalid number")
  | _ :: _ => .error (.Parse "protocol error; expected int frame")

/-- `Parse::finish`: error unless the iterator is exhausted. -/
def finish : List Frame → Except MiniRedisParseError Unit
  | [] => .ok ()
  | _ :: _ => .error (.Parse "protocol error; expected end of frame, but there was more")

end Parse

/-! ## The command layer (`src/cmd/*.rs`) -/

/-- The parsed commands (`Command` in `cmd/mod.rs`, with the per-command
structs `Get`, `Ping`, `Publish`, `Set`, `Subscribe`, `Unsubscribe`,
`Unknown`, `Del` flattened into the constructors).  A `Duration` is its
number of milliseconds (`Duration::from_secs(n)` is `1000 * n`). -/
inductive Command where
  | get (key : Bytes) : Command
  | ping (msg : Option Bytes) : Command
  | publish (channel : Bytes) (message : Bytes) : Command
  | set (key : Bytes) (value : Bytes) (expire : Option Nat) : Command
  | subscribe (channels : List Bytes) : Command
  | unsubscribe (channels : List Bytes) : Command
  | unknown (cmd_name : Bytes) : Command
  | del (key : Bytes) : Command
deriving Repr

/-- `Get::parse_frame`. -/
def Get.parse_frame (parts : List Frame) :
    Except MiniRedisParseError (Command × List Frame) :=
  match Parse.next_string parts with
  | .ok (key, rest) => .ok (.get key, rest)
  | .error e => .error e

/-- `Ping::parse_frame`: an optional message; `EndOfStream` yields the
default `Ping`. -/
def Ping.parse_frame (parts : List Frame) :
    Except MiniRedisParseError (Command × List Frame) :=
  match Parse.next_string parts with
  | .ok (msg, rest) => .ok (.ping (some msg), rest)
  | .error .EndOfStream => .ok (.ping none, parts)
  | .error e => .error e

/-- `Publish::parse_frame`. -/
def Publish.parse_frame (parts : List Frame) :
    Except MiniRedisParseError (Command × List Frame) :=
  match Parse.next_string parts with
  | .ok (channel, rest) =>
    match Parse.next_bytes rest with
    | .ok (message, rest2) => .ok (.publish channel message, rest2)
    | .error e => .error e
  | .error e => .error e

/-- ASCII uppercasing of a byte (`String::to_uppercase` on the ASCII
option tokens `EX` / `PX`). -/
def asciiUpper (b : Nat) : Nat := if 97 ≤ b ∧ b ≤ 122 then b - 32 else b

/-- `to_uppercase` on the byte-list model of an ASCII string. -/
def bytesUpper (l : Bytes) : Bytes := l.map asciiUpper

/-- `Set::parse_frame`: key, value, then an optional `EX seconds` /
`PX milliseconds` option; any other option is an error, `EndOfStream`
means no option. -/
def Set.parse_frame (parts : List Frame) :
    Except MiniRedisParseError (Command × List Frame) :=
  match Parse.next_string parts with
  | .ok (key, r1) =>
    match Parse.next_bytes r1 with
    | .ok (value, r2) =>
      match Parse.next_string r2 with
      | .ok (s, r3) =>
        if bytesUpper s = strBytes "EX" then
          match Parse.next_int r3 with
          | .ok (seconds, r4) => .ok (.set key value (some (1000 * seconds)), r4)
          | .error e => .error e
        else if bytesUpper s = strBytes "PX" then
          match Parse.next_int r3 with
          | .ok (millis, r4) => .ok (.set key value (some millis), r4)
          | .error e => .error e
        else
          .error (.Parse "currently `SET` only support the expiration option")
      | .error .EndOfStream => .ok (.set key value none, r2)
      | .error e => .error e
    | .error e => .error e
  | .error e => .error e

/-- The `loop { match parse.next_string() ... }` of
`Subscribe::parse_frame` and `Unsubscribe::parse_frame`: collect
strings until `EndOfStream`. -/
def collectStrings : List Frame → List Bytes → Except MiniRedisParseError (List Bytes)
  | [], acc => .ok acc
  | f :: t, acc =>
    match Parse.frameToString f with
    | .ok s => collectStrings t (acc ++ [s])
    | .error e => .error e

/-- `Subscribe::parse_frame`: one mandatory channel, then the rest of
the frame as channels. -/
def Subscribe.parse_frame (parts : List Frame) :
    Except MiniRedisParseError (Command × List Frame) :=
  match Parse.next_string parts with
  | .ok (first, rest) =>
    match collectStrings rest [first] with
    | .ok channels => .ok (.subscribe channels, [])
    | .error e => .error e
  | .error e => .error e

/-- `Unsubscribe::parse_frame`: possibly empty channel list. -/
def Unsubscribe.parse_frame (parts : List Frame) :
    Except MiniRedisParseError (Command × List Frame) :=
  match collectStrings parts [] with
  | .ok channels => .ok (.unsubscribe channels, [])
  | .error e => .error e

/-- `Del::parse_frame`. -/
def Del.parse_frame (parts : List Frame) :
    Except MiniRedisParseError (Command × List Frame) :=
  match Parse.next_string parts with
  | .ok (key, rest) => .ok (.del key, rest)
  | .error e => .error e

namespace Command

/-- `Command::from_frame`: decorate the array frame with the cursor,
read the lowercased command name, dispatch to the per-command parser,
and check `finish()` — except for an unrecognized name, which returns
`Unknown` immediately, leaving trailing fields unvalidated. -/
def from_frame (frame : Frame) : Except MiniRedisParseError Command :=
  match Parse.new frame with
  | .ok parts =>
    match Parse.next_string parts with
    | .ok (name, rest) =>
      let cmd_name := bytesLower name
      let parsed : Except MiniRedisParseError (Option (Command × List Frame)) :=
        if cmd_name = strBytes "get" then (Get.parse_frame rest).map some
        else if cmd_name = strBytes "ping" then (Ping.parse_frame rest).map some
        else if cmd_name = strBytes "publish" then (Publish.parse_frame rest).map some
        else if cmd_name = strBytes "set" then (Set.parse_frame rest).map some
        else if cmd_name = strBytes "subscribe" then (Subscribe.parse_frame rest).map some
        else if cmd_name = strBytes "unsubscribe" then (Unsubscribe.parse_frame rest).map some
        else if cmd_name = strBytes "del" then (Del.parse_frame rest).map some
        else .ok none
      match parsed with
      | .ok (some (cmd, rest2)) =>
        match Parse.finish rest2 with
        | .ok _ => .ok cmd
        | .error e => .error e
      | .ok none => .ok (.unknown cmd_name)
      | .error e => .error e
    | .error e => .error e
  | .error e => .error e

/-- `Command::get_name`. -/
def get_name : Command → Bytes
  | .get _ => strBytes "get"
  | .ping _ => strBytes "ping"
  | .publish _ _ => strBytes "publish"
  | .set _ _ _ => strBytes "set"
  | .subscribe _ => strBytes "subscribe"
  | .unsubscribe _ => strBytes "unsubscribe"
  | .unknown cmd_name => cmd_name
  | .del _ => strBytes "del"

end Command

/-- The reply frame written by `Unknown::apply`:
`Error(format!("err unknown command '{}'", self.cmd_name))` (byte 39 is
the single-quote character). -/
def unknownReply (cmd_name : Bytes) : Frame :=
  .error (strBytes "err unknown command " ++ [39] ++ cmd_name ++ [39])

/-- The immediate effect of `handle_command` (`cmd/subscribe.rs`) on
one client frame in the subscriber submode. -/
inductive SubAction where
  /-- `Command::Subscribe`: the channels are appended to `subscribe_to`
  (the per-channel acks are produced later by `Subscribe::apply`). -/
  | subscribeTo (channels : List Bytes) : SubAction
  /-- `Command::Unsubscribe`: the channels removed from the subscription
  map (all currently subscribed ones when the list is empty), each
  acknowledged in turn. -/
  | unsubscribeFrom (channels : List Bytes) : SubAction
  /-- Any other command: a single `Unknown`-style error reply. -/
  | reply (f : Frame) : SubAction
deriving Repr

/-- `handle_command` (`cmd/subscribe.rs`): in the subscriber submode,
only `SUBSCRIBE` and `UNSUBSCRIBE` act; every other parsed command is
answered with `Unknown::new(command.get_name()).apply(dst)`.
`currentChannels` are the keys of the `StreamMap` (used when an empty
`UNSUBSCRIBE` means "all"). -/
def handle_command (frame : Frame) (currentChannels : List Bytes) :
    Except MiniRedisParseError SubAction :=
  match Command.from_frame frame with
  | .ok (.subscribe channels) => .ok (.subscribeTo channels)
  | .ok (.unsubscribe channels) =>
    .ok (.unsubscribeFrom (if channels.isEmpty then currentChannels else channels))
  | .ok command => .ok (.reply (unknownReply command.get_name))
  | .error e => .error e

/-! ## The accept loop (`src/server/listener.rs`)

`Listener::accept` retries failed `accept` calls with an exponential
backoff starting at 1 second; once `backoff > 64` the error is
returned.  The nondeterministic sequence of outcomes of the underlying
`self.listener.accept()` calls is an explicit list argument (`some sock`
for a successful accept, `none` for an error); the model returns what
the loop does on that prefix of outcomes — `some (ok socket)` /
`some (error ())` when it finishes, `none` when it exhausts the listed
outcomes — together with the list of sleep durations (seconds) in
order. -/

def acceptLoop : List (Option Nat) → Nat → Option (Except Unit Nat) × List Nat
  | [], _ => (none, [])
  | outcome :: rest, backoff =>
    match outcome with
    | some socket => (some (.ok socket), [])
    | none =>
      if backoff > 64 then (some (.error ()), [])
      else
        let (res, sleeps) := acceptLoop rest (backoff * 2)
        (res, backoff :: sleeps)

/-- `Listener::accept`: the loop starts with `backoff = 1`. -/
def Listener.accept (outcomes : List (Option Nat)) : Option (Except Unit Nat) × List Nat :=
  acceptLoop outcomes 1

/-! ## Association-list lemmas -/

section MapLemmas

variable {α β : Type} [DecidableEq α]

/-- The keys of an association list are pairwise distinct (the invariant
`HashMap` and `BTreeMap` maintain for the lists representing them). -/
def keysNodup (l : List (α × β)) : Prop := l.Pairwise (fun p q => p.1 ≠ q.1)

theorem mapRemove_sublist (k : α) (l : List (α × β)) : (mapRemove k l).Sublist l := by
  induction l with
  | nil => simp [mapRemove]
  | cons p t ih =>
    obtain ⟨a, b⟩ := p
    rw [mapRemove]
    split
    · exact (List.sublist_cons_self _ _)
    · exact ih.cons₂ _

theorem keysNodup_mapRemove {l : List (α × β)} (h : keysNodup l) (k : α) :
    keysNodup (mapRemove k l) :=
  h.sublist (mapRemove_sublist k l)

theorem mapLookup_mem {l : List (α × β)} {k : α} {v : β}
    (h : mapLookup k l = some v) : (k, v) ∈ l := by
  induction l with
  | nil => simp [mapLookup] at h
  | cons p t ih =>
    obtain ⟨a, b⟩ := p
    rw [mapLookup] at h
    split at h
    · rename_i ha
      obtain rfl := Option.some.inj h
      subst ha
      exact List.mem_cons_self ..
    · exact List.mem_cons_of_mem _ (ih h)

theorem mapLookup_eq_some_of_mem {l : List (α × β)} {k : α} {v : β}
    (hn : keysNodup l) (h : (k, v) ∈ l) : mapLookup k l = some v := by
  induction l with
  | nil => simp at h
  | cons p t ih =>
    obtain ⟨a, b⟩ := p
    rcases List.mem_cons.mp h with h1 | h1
    · obtain ⟨rfl, rfl⟩ := Prod.mk.injEq .. ▸ h1
      rw [mapLookup, if_pos rfl]
    · have hna : a ≠ k := by
        have := (List.pairwise_cons.mp hn).1 (k, v) h1
        simpa using this
      rw [mapLookup, if_neg hna]
      exact ih (List.pairwise_cons.mp hn).2 h1

theorem mapLookup_eq_none {l : List (α × β)} {k : α} :
    mapLookup k l = none ↔ ∀ p ∈ l, p.1 ≠ k := by
  induction l with
  | nil => simp [mapLookup]
  | cons p t ih =>
    obtain ⟨a, b⟩ := p
    rw [mapLookup]
    constructor
    · intro h q hq
      split at h
      · simp at h
      · rename_i ha
        rcases List.mem_cons.mp hq with h1 | h1
        · subst h1; exact ha
        · exact ih.mp h q h1
    · intro h
      have ha : a ≠ k := h (a, b) (List.mem_cons_self ..)
      rw [if_neg ha]
      exact ih.mpr fun q hq => h q (List.mem_cons_of_mem _ hq)

theorem mapLookup_mapRemove_ne {l : List (α × β)} {k k' : α} (h : k' ≠ k) :
    mapLookup k' (mapRemove k l) = mapLookup k' l := by
  induction l with
  | nil => rfl
  | cons p t ih =>
    obtain ⟨a, b⟩ := p
    rw [mapRemove]
    split
    · rename_i ha
      subst ha
      rw [mapLookup, if_neg (fun hh => h hh.symm)]
    · rw [mapLookup, mapLookup]
      split
      · rfl
      · exact ih

theorem mapLookup_mapRemove_self {l : List (α × β)} (hn : keysNodup l) (k : α) :
    mapLookup k (mapRemove k l) = none := by
  induction l with
  | nil => rfl
  | cons p t ih =>
    obtain ⟨a, b⟩ := p
    obtain ⟨h1, h2⟩ := List.pairwise_cons.mp hn
    rw [mapRemove]
    split
    · rename_i ha
      subst ha
      exact mapLookup_eq_none.mpr fun q hq => (h1 q hq).symm
    · rename_i ha
      rw [mapLookup, if_neg ha]
      exact ih h2

theorem mem_mapRemove_of_mem {l : List (α × β)} {k : α} {p : α × β}
    (hp : p ∈ l) (hk : p.1 ≠ k) : p ∈ mapRemove k l := by
  induction l with
  | nil => simp at hp
  | cons q t ih =>
    obtain ⟨a, b⟩ := q
    rw [mapRemove]
    rcases List.mem_cons.mp hp with h1 | h1
    · subst h1
      rw [if_neg (by simpa using hk)]
      exact List.mem_cons_self ..
    · split
      · exact h1
      · exact List.mem_cons_of_mem _ (ih h1)

theorem mem_of_mem_mapRemove {l : List (α × β)} {k : α} {p : α × β}
    (hp : p ∈ mapRemove k l) : p ∈ l :=
  (mapRemove_sublist k l).mem hp

theorem ne_of_mem_mapRemove {l : List (α × β)} {k : α} {p : α × β}
    (hn : keysNodup l) (hp : p ∈ mapRemove k l) : p.1 ≠ k := by
  induction l with
  | nil => simp [mapRemove] at hp
  | cons q t ih =>
    obtain ⟨a, b⟩ := q
    obtain ⟨h1, h2⟩ := List.pairwise_cons.mp hn
    rw [mapRemove] at hp
    split at hp
    · rename_i ha
      subst ha
      intro hk
      exact (h1 p hp) hk.symm
    · rename_i ha
      rcases List.mem_cons.mp hp with h3 | h3
      · subst h3
        simpa using ha
      · exact ih h2 h3

theorem mapLookup_mapInsert_self (k : α) (v : β) (l : List (α × β)) :
    mapLookup k (mapInsert k v l) = some v := by
  induction l with
  | nil => simp [mapInsert, mapLookup]
  | cons p t ih =>
    obtain ⟨a, b⟩ := p
    rw [mapInsert]
    split
    · rw [mapLookup, if_pos rfl]
    · rename_i ha
      rw [mapLookup, if_neg ha]
      exact ih

theorem mapLookup_mapInsert_ne {k k' : α} (h : k' ≠ k) (v : β) (l : List (α × β)) :
    mapLookup k' (mapInsert k v l) = mapLookup k' l := by
  induction l with
  | nil =>
    simp only [mapInsert, mapLookup]
    rw [if_neg (fun hh => h hh.symm)]
  | cons p t ih =>
    obtain ⟨a, b⟩ := p
    rw [mapInsert]
    split
    · rename_i ha
      subst ha
      rw [mapLookup, mapLookup, if_neg (fun hh => h hh.symm), if_neg (fun hh => h hh.symm)]
    · rw [mapLookup, mapLookup]
      split
      · rfl
      · exact ih

theorem mem_mapInsert {l : List (α × β)} {k : α} {v : β} {p : α × β}
    (hp : p ∈ mapInsert k v l) : p = (k, v) ∨ p ∈ l := by
  induction l with
  | nil => simpa [mapInsert] using hp
  | cons q t ih =>
    obtain ⟨a, b⟩ := q
    rw [mapInsert] at hp
    split at hp
    · rcases List.mem_cons.mp hp with h1 | h1
      · exact Or.inl h1
      · exact Or.inr (List.mem_cons_of_mem _ h1)
    · rcases List.mem_cons.mp hp with h1 | h1
      · exact Or.inr (h1 ▸ List.mem_cons_self ..)
      · rcases ih h1 with h2 | h2
        · exact Or.inl h2
        · exact Or.inr (List.mem_cons_of_mem _ h2)

theorem mem_mapInsert_strong {l : List (α × β)} {k : α} {v : β} {p : α × β}
    (hn : keysNodup l) (hp : p ∈ mapInsert k v l) : p = (k, v) ∨ (p ∈ l ∧ p.1 ≠ k) := by
  induction l with
  | nil => simpa [mapInsert] using hp
  | cons q t ih =>
    obtain ⟨a, b⟩ := q
    obtain ⟨h1, h2⟩ := List.pairwise_cons.mp hn
    rw [mapInsert] at hp
    split at hp
    · rename_i ha
      subst ha
      rcases List.mem_cons.mp hp with hh | hh
      · exact Or.inl hh
      · refine Or.inr ⟨List.mem_cons_of_mem _ hh, ?_⟩
        exact fun hk => (h1 p hh) hk.symm
    · rename_i ha
      rcases List.mem_cons.mp hp with hh | hh
      · subst hh
        exact Or.inr ⟨List.mem_cons_self .., by simpa using ha⟩
      · rcases ih h2 hh with h3 | h3
        · exact Or.inl h3
        · exact Or.inr ⟨List.mem_cons_of_mem _ h3.1, h3.2⟩

theorem keysNodup_mapInsert {l : List (α × β)} (hn : keysNodup l) (k : α) (v : β) :
    keysNodup (mapInsert k v l) := by
  induction l with
  | nil => simp [mapInsert, keysNodup]
  | cons q t ih =>
    obtain ⟨a, b⟩ := q
    obtain ⟨h1, h2⟩ := List.pairwise_cons.mp hn
    rw [mapInsert]
    split
    · rename_i ha
      subst ha
      exact List.pairwise_cons.mpr ⟨fun p hp => h1 p hp, h2⟩
    · rename_i ha
      refine List.pairwise_cons.mpr ⟨?_, ih h2⟩
      intro p hp
      rcases mem_mapInsert hp with h3 | h3
      · subst h3; simpa using ha
      · exact h1 p h3

end MapLemmas

/-! ## Expiration-index order lemmas -/

theorem lexLt_irrefl (p : Nat × Nat) : ¬ lexLt p p := by
  unfold lexLt
  omega

theorem lexLt_trans {p q r : Nat × Nat} (h1 : lexLt p q) (h2 : lexLt q r) : lexLt p r := by
  unfold lexLt at *
  omega

theorem lexLt_total (p q : Nat × Nat) : lexLt p q ∨ p = q ∨ lexLt q p := by
  unfold lexLt
  rcases p with ⟨a, b⟩
  rcases q with ⟨c, d⟩
  simp only [Prod.mk.injEq]
  omega

theorem ne_of_lexLt {p q : Nat × Nat} (h : lexLt p q) : p ≠ q := by
  intro hh
  subst hh
  exact lexLt_irrefl p h

/-- The sortedness invariant of the expiration index: keys strictly
increasing in the lexicographic order. -/
def expSorted (l : List ((Nat × Nat) × String)) : Prop :=
  l.Pairwise (fun p q => lexLt p.1 q.1)

theorem keysNodup_of_expSorted {l : List ((Nat × Nat) × String)} (h : expSorted l) :
    keysNodup l :=
  h.imp fun hpq => ne_of_lexLt hpq

theorem mem_btInsert {l : List ((Nat × Nat) × String)} {k : Nat × Nat} {v : String}
    {p : (Nat × Nat) × String} (hp : p ∈ btInsert k v l) : p = (k, v) ∨ p ∈ l := by
  induction l with
  | nil => simpa [btInsert] using hp
  | cons q t ih =>
    obtain ⟨a, b⟩ := q
    rw [btInsert] at hp
    split at hp
    · rcases List.mem_cons.mp hp with h1 | h1
      · exact Or.inl h1
      · exact Or.inr h1
    · split at hp
      · rcases List.mem_cons.mp hp with h1 | h1
        · exact Or.inl h1
        · exact Or.inr (List.mem_cons_of_mem _ h1)
      · rcases List.mem_cons.mp hp with h1 | h1
        · exact Or.inr (h1 ▸ List.mem_cons_self ..)
        · rcases ih h1 with h2 | h2
          · exact Or.inl h2
          · exact Or.inr (List.mem_cons_of_mem _ h2)

theorem expSorted_btInsert {l : List ((Nat × Nat) × String)} (hs : expSorted l)
    (k : Nat × Nat) (v : String) : expSorted (btInsert k v l) := by
  induction l with
  | nil => simp [btInsert, expSorted]
  | cons q t ih =>
    obtain ⟨a, b⟩ := q
    obtain ⟨h1, h2⟩ := List.pairwise_cons.mp hs
    rw [btInsert]
    split
    · rename_i hka
      refine List.pairwise_cons.mpr ⟨?_, hs⟩
      intro p hp
      rcases List.mem_cons.mp hp with h3 | h3
      · subst h3; exact hka
      · exact lexLt_trans hka (h1 p h3)
    · split
      · rename_i hka
        subst hka
        exact List.pairwise_cons.mpr ⟨fun p hp => h1 p hp, h2⟩
      · rename_i hnlt hne
        refine List.pairwise_cons.mpr ⟨?_, ih h2⟩
        intro p hp
        rcases mem_btInsert hp with h3 | h3
        · subst h3
          rcases lexLt_total k (a, b).1 with hh | hh | hh
          · exact absurd hh hnlt
          · exact absurd hh hne
          · exact hh
        · exact h1 p h3

theorem mapLookup_btInsert_self (k : Nat × Nat) (v : String)
    (l : List ((Nat × Nat) × String)) : mapLookup k (btInsert k v l) = some v := by
  induction l with
  | nil => simp [btInsert, mapLookup]
  | cons q t ih =>
    obtain ⟨a, b⟩ := q
    rw [btInsert]
    split
    · rw [mapLookup, if_pos rfl]
    · split
      · rw [mapLookup, if_pos rfl]
      · rename_i hnlt hne
        rw [mapLookup, if_neg (fun hh => hne hh.symm)]
        exact ih

theorem mapLookup_btInsert_ne {k k' : Nat × Nat} (h : k' ≠ k) (v : String)
    (l : List ((Nat × Nat) × String)) :
    mapLookup k' (btInsert k v l) = mapLookup k' l := by
  induction l with
  | nil =>
    simp only [btInsert, mapLookup]
    rw [if_neg (fun hh => h hh.symm)]
  | cons q t ih =>
    obtain ⟨a, b⟩ := q
    rw [btInsert]
    split
    · rw [mapLookup, if_neg (fun hh => h hh.symm), mapLookup]
    · split
      · rename_i hka
        subst hka
        rw [mapLookup, mapLookup, if_neg (fun hh => h hh.symm), if_neg (fun hh => h hh.symm)]
      · rw [mapLookup, mapLookup]
        split
        · rfl
        · exact ih

theorem mapLookup_map_value {α β γ : Type} [DecidableEq α] (g : β → γ) (k : α) :
    ∀ l : List (α × β),
      mapLookup k (l.map (fun p => (p.1, g p.2))) = (mapLookup k l).map g := by
  intro l
  induction l with
  | nil => rfl
  | cons p t ih =>
    obtain ⟨a, b⟩ := p
    simp only [List.map_cons, mapLookup]
    split
    · rfl
    · exact ih

/-! ## The store invariant (spec section 3, claim C4) -/

namespace Store

/-- The store invariant: (index representation) entry keys are
distinct and the expiration index is strictly sorted, as `HashMap` and
`BTreeMap` themselves guarantee; (a) every entry with a deadline `t`
owns exactly one index element, keyed `(t, id)` and mapping to the
entry's key (with distinct index keys, `mapLookup ... = some key` says
exactly that); (b) every index element points to an existing entry with
the matching id and deadline; (c) every live id is below `next_id`. -/
def Inv (s : Store) : Prop :=
  keysNodup s.entries ∧ expSorted s.expirations ∧
  (∀ pe ∈ s.entries, ∀ t, pe.2.expires_at = some t →
    mapLookup (t, pe.2.id) s.expirations = some pe.1) ∧
  (∀ q ∈ s.expirations, ∃ e, mapLookup q.2 s.entries = some e ∧
    e.id = q.1.2 ∧ e.expires_at = some q.1.1) ∧
  (∀ pe ∈ s.entries, pe.2.id < s.next_id)

end Store

/-! ## Claim theorems: store reads, notify flag, publish, backoff -/

/-- C6: `Store::get` returns a clone of `entries[key].data` whenever
the key is present — the third conjunct makes "never consults
`expires_at`" explicit: rewriting every entry's deadline arbitrarily
(in particular to one already in the past) does not change the result —
and returns `None` exactly when the key is absent.  `get` takes `&self`
in the source and its model returns no store, so it cannot mutate. -/
theorem c6_store_get_ignores_expiry (s : Store) (key : String) :
    (∀ e, mapLookup key s.entries = some e → Store.get s key = some e.data) ∧
    (mapLookup key s.entries = none → Store.get s key = none) ∧
    (∀ f : Option Nat → Option Nat,
      Store.get { s with
        entries := s.entries.map fun p => (p.1, ⟨p.2.id, p.2.data, f p.2.expires_at⟩) } key =
      Store.get s key) := by
  refine ⟨?_, ?_, ?_⟩
  · intro e he
    rw [Store.get, he]
    rfl
  · intro he
    rw [Store.get, he]
    rfl
  · intro f
    have hmap : ∀ l : List (String × Entry),
        mapLookup key (l.map fun p => (p.1, (⟨p.2.id, p.2.data, f p.2.expires_at⟩ : Entry))) =
          (mapLookup key l).map fun e => (⟨e.id, e.data, f e.expires_at⟩ : Entry) := by
      intro l
      induction l with
      | nil => rfl
      | cons p t ih =>
        obtain ⟨a, b⟩ := p
        simp only [List.map_cons, mapLookup]
        split
        · rfl
        · exact ih
    rw [Store.get, Store.get]
    show (mapLookup key (s.entries.map fun p =>
      (p.1, (⟨p.2.id, p.2.data, f p.2.expires_at⟩ : Entry)))).map (fun e => e.data) =
      (mapLookup key s.entries).map fun e => e.data
    rw [hmap]
    cases mapLookup key s.entries <;> rfl

/-- Witness for C6 at a concrete store. -/
theorem c6_witness :
    Store.get ⟨[("k", ⟨0, [1, 2], some 5⟩)], [], [((5, 0), "k")], 1, false⟩ "k" =
      some [1, 2] ∧
    Store.get ⟨[("k", ⟨0, [1, 2], some 5⟩)], [], [((5, 0), "k")], 1, false⟩ "x" = none := by
  have h := c6_store_get_ignores_expiry
    ⟨[("k", ⟨0, [1, 2], some 5⟩)], [], [((5, 0), "k")], 1, false⟩ "k"
  have h2 := c6_store_get_ignores_expiry
    ⟨[("k", ⟨0, [1, 2], some 5⟩)], [], [((5, 0), "k")], 1, false⟩ "x"
  exact ⟨h.1 ⟨0, [1, 2], some 5⟩ (by simp [mapLookup]),
         h2.2.1 (by simp [mapLookup])⟩

/-- C3: `Store::set` returns `true` (signal the expirer) iff an expiry
was supplied and the new deadline `now + d` precedes every instant in
the expiration index as it was before the call (equivalently: the index
was empty, or `now + d` is strictly earlier than its minimum — the
notify flag is computed against the pre-insertion, pre-removal index). -/
theorem c3_store_set_notify (s : Store) (now : Nat) (key : String) (value : Bytes)
    (expire : Option Nat) (hs : expSorted s.expirations) :
    (Store.set s now key value expire).2 = true ↔
      ∃ d, expire = some d ∧ ∀ q ∈ s.expirations, now + d < q.1.1 := by
  cases expire with
  | none => simp [Store.set]
  | some d =>
    cases hexp : s.expirations with
    | nil => simp [Store.set, Store.next_expiration, hexp]
    | cons hd tl =>
      have hall : ∀ q ∈ tl, lexLt hd.1 q.1 :=
        (List.pairwise_cons.mp (hexp ▸ hs)).1
      have hval : (Store.set s now key value (some d)).2 = decide (now + d < hd.1.1) := by
        simp [Store.set, Store.next_expiration, hexp]
      rw [hval]
      simp only [decide_eq_true_eq, Option.some.injEq]
      constructor
      · intro h
        refine ⟨d, rfl, ?_⟩
        intro q hq
        rcases List.mem_cons.mp hq with h1 | h1
        · subst h1; exact h
        · have h2 := hall q h1
          unfold lexLt at h2
          omega
      · intro h
        obtain ⟨d', rfl, hq⟩ := h
        exact hq hd (List.mem_cons_self ..)

/-- Witness for C3: a store with one indexed deadline at instant 10;
setting with a new deadline `3 + 4 = 7 < 10` notifies. -/
theorem c3_witness :
    (Store.set ⟨[("k", ⟨0, [1], some 10⟩)], [], [((10, 0), "k")], 1, false⟩
      3 "j" [2] (some 4)).2 = true := by
  rw [c3_store_set_notify _ 3 "j" [2] (some 4)
    (by simp [expSorted])]
  refine ⟨4, rfl, ?_⟩
  intro q hq
  simp only [List.mem_singleton] at hq
  subst hq
  norm_num

/-- C10: `Store::publish` takes `&self` and leaves the store — every
field — unchanged, returning 0 for a channel with no broadcaster; no
other store operation changes the `pub_sub` registry either, except
`subscribe`, which alone inserts: after `subscribe chan` the registry
differs from the original exactly at `chan` (a fresh capacity-1024
broadcaster with one receiver, or one more receiver on the existing
one). -/
theorem c10_publish_leaves_store_unchanged (s : Store) (key : String) (value : Bytes) :
    (Store.publish s key value).1 = s ∧
    (mapLookup key s.pub_sub = none → (Store.publish s key value).2 = 0) ∧
    (∀ now k v e, (Store.set s now k v e).1.pub_sub = s.pub_sub) ∧
    (∀ k, (Store.del s k).1.pub_sub = s.pub_sub) ∧
    (∀ now, (Store.purge_expired_keys s now).1.pub_sub = s.pub_sub) ∧
    (∀ b, (Store.set_shutdown s b).pub_sub = s.pub_sub) ∧
    (∀ chan c, mapLookup c (Store.subscribe s chan).pub_sub =
      if c = chan then
        some (match mapLookup chan s.pub_sub with
              | some tx => { tx with receivers := tx.receivers + 1 }
              | none => ⟨1, 1024⟩)
      else mapLookup c s.pub_sub) := by
  refine ⟨?_, ?_, ?_, ?_, ?_, ?_, ?_⟩
  · rw [Store.publish]
    split
    · split <;> rfl
    · rfl
  · intro h
    rw [Store.publish, h]
  · intro now k v e
    cases e <;> rfl
  · intro k
    rw [Store.del]
    split
    · rfl
    · rfl
  · intro now
    rw [Store.purge_expired_keys]
    split
    · rfl
    · rfl
  · intro b
    rfl
  · intro chan c
    rw [Store.subscribe]
    by_cases hc : c = chan
    · subst hc
      split <;> simp [mapLookup_mapInsert_self]
    · split <;> simp [mapLookup_mapInsert_ne hc, hc]

/-- Witness for C10 (the second conjunct carries the hypothesis):
publishing on an empty store returns 0 and the same store. -/
theorem c10_witness :
    (Store.publish Store.new "ch" [1]).1 = Store.new ∧
    (Store.publish Store.new "ch" [1]).2 = 0 := by
  have h := c10_publish_leaves_store_unchanged Store.new "ch" [1]
  exact ⟨h.1, h.2.1 (by rfl)⟩

/-- The accept-loop generalization: starting from backoff `2 ^ j`,
`n` consecutive failures followed by a success return the socket after
sleeping `2 ^ j, 2 ^ (j + 1), …, 2 ^ (j + n - 1)` seconds, as long as
every sleep is at most 64 seconds (`n + j ≤ 7`). -/
theorem acceptLoop_backoff (sock : Nat) (rest : List (Option Nat)) :
    ∀ n j, n + j ≤ 7 →
      acceptLoop (List.replicate n none ++ some sock :: rest) (2 ^ j) =
        (some (.ok sock), (List.range n).map (fun i => 2 ^ (j + i))) := by
  intro n
  induction n with
  | zero => intro j _; simp [acceptLoop]
  | succ n ih =>
    intro j hj
    have hle : 2 ^ j ≤ 64 := by
      calc 2 ^ j ≤ 2 ^ 6 := Nat.pow_le_pow_right (by norm_num) (by omega)
      _ = 64 := by norm_num
    have hrec := ih (j + 1) (by omega)
    simp only [List.replicate_succ, List.cons_append, acceptLoop]
    rw [if_neg (by omega)]
    have h2 : 2 ^ j * 2 = 2 ^ (j + 1) := by ring
    simp only [List.append_eq]
    rw [h2, hrec]
    simp only [Prod.mk.injEq, List.range_succ_eq_map, List.map_cons, List.map_map,
      Nat.add_zero, List.cons.injEq]
    refine ⟨trivial, trivial, ?_⟩
    apply List.map_congr_left
    intro i _
    simp only [Function.comp_apply]
    congr 1
    omega

/-- C9: `Listener::accept` returns the socket on the first successful
accept; after `n ≤ 7` consecutive failures it has slept
`1, 2, …, 2 ^ (n - 1)` seconds (one doubling sleep per failure) before
the success; and a run of 8 consecutive failures — the next failure
after the 64-second wait — returns an error with exactly the sleeps
`1, 2, 4, 8, 16, 32, 64` behind it, whatever outcomes would follow. -/
theorem c9_listener_accept_backoff (sock : Nat) (rest : List (Option Nat)) :
    (∀ n, n ≤ 7 →
      Listener.accept (List.replicate n none ++ some sock :: rest) =
        (some (.ok sock), (List.range n).map (fun i => 2 ^ i))) ∧
    Listener.accept (List.replicate 8 none ++ rest) =
      (some (.error ()), [1, 2, 4, 8, 16, 32, 64]) := by
  constructor
  · intro n hn
    have := acceptLoop_backoff sock rest n 0 (by omega)
    rw [Listener.accept]
    rw [show (1 : Nat) = 2 ^ 0 by norm_num, this]
    simp
  · rfl

/-- Witness for C9: three failures then a success sleeps 1, 2, 4. -/
theorem c9_witness :
    Listener.accept [none, none, none, some 7] = (some (.ok 7), [1, 2, 4]) := by
  have h := (c9_listener_accept_backoff 7 []).1 3 (by norm_num)
  simpa [List.range_succ] using h

/-- The recognized command names of `Command::from_frame`. -/
def recognizedNames : List Bytes :=
  [strBytes "get", strBytes "ping", strBytes "publish", strBytes "set",
   strBytes "subscribe", strBytes "unsubscribe", strBytes "del"]

/-- C7: unknown-command handling.  (1) In normal mode, a request array
whose first element is a string (Simple or ASCII Bulk) lowercasing to a
name outside the recognized set parses to `Unknown` for any trailing
fields (they are not validated), and `Unknown::apply` writes the frame
`Error "err unknown command '<lowercased-name>'"`.  (2) In the
subscriber submode, `handle_command` answers every successfully parsed
command other than `SUBSCRIBE` and `UNSUBSCRIBE` — `PING` included,
witness the concrete instantiation — with the same unknown-command
error built from the command's name. -/
theorem c7_unknown_command (name : Bytes) (tail : List Frame) (first : Frame)
    (hascii : ∀ b ∈ name, b < 128)
    (hfirst : first = .simple name ∨ first = .bulk name)
    (hout : bytesLower name ∉ recognizedNames) :
    Command.from_frame (.array (first :: tail)) = .ok (.unknown (bytesLower name)) ∧
    unknownReply (bytesLower name) =
      .error (strBytes "err unknown command " ++ [39] ++ bytesLower name ++ [39]) ∧
    (∀ frame cmd chans, Command.from_frame frame = .ok cmd →
      (∀ cs, cmd ≠ .subscribe cs) → (∀ cs, cmd ≠ .unsubscribe cs) →
      handle_command frame chans = .ok (.reply (unknownReply cmd.get_name))) := by
  simp only [recognizedNames, List.mem_cons, List.mem_singleton, not_or,
    List.not_mem_nil] at hout
  have h1 := hout.1
  have h2 := hout.2.1
  have h3 := hout.2.2.1
  have h4 := hout.2.2.2.1
  have h5 := hout.2.2.2.2.1
  have h6 := hout.2.2.2.2.2.1
  have h7 := hout.2.2.2.2.2.2.1
  refine ⟨?_, rfl, ?_⟩
  · rcases hfirst with rfl | rfl
    · simp only [Command.from_frame, Parse.new, Parse.next_string, Parse.frameToString,
        if_neg h1, if_neg h2, if_neg h3, if_neg h4, if_neg h5, if_neg h6, if_neg h7]
    · simp only [Command.from_frame, Parse.new, Parse.next_string, Parse.frameToString,
        fromUtf8, if_pos (validUtf8_of_ascii hascii),
        if_neg h1, if_neg h2, if_neg h3, if_neg h4, if_neg h5, if_neg h6, if_neg h7]
  · intro frame cmd chans hcf hsub hunsub
    rw [handle_command, hcf]
    cases cmd with
    | subscribe cs => exact absurd rfl (hsub cs)
    | unsubscribe cs => exact absurd rfl (hunsub cs)
    | get k => rfl
    | ping m => rfl
    | publish c m => rfl
    | set k v e => rfl
    | unknown n => rfl
    | del k => rfl

/-- Witness for C7: the name `FOO` lowercases to `foo`, is answered with
the unknown-command error whatever the trailing fields, and a parsed
`PING` in subscriber mode receives `Error "err unknown command 'ping'"`. -/
theorem c7_witness :
    Command.from_frame (.array (.simple (strBytes "FOO") :: [.bulk [1]])) =
      .ok (.unknown (strBytes "foo")) ∧
    handle_command (.array [.simple (strBytes "ping")]) [] =
      .ok (.reply (unknownReply (strBytes "ping"))) := by
  have h := c7_unknown_command (strBytes "FOO") [.bulk [1]] (.simple (strBytes "FOO"))
    (by decide) (Or.inl rfl) (by decide)
  have hlow : bytesLower (strBytes "FOO") = strBytes "foo" := by decide
  refine ⟨hlow ▸ h.1, ?_⟩
  have hping : Command.from_frame (.array [.simple (strBytes "ping")]) =
      .ok (.ping none) := rfl
  have := h.2.2 (.array [.simple (strBytes "ping")]) (.ping none) [] hping
    (fun cs => by simp) (fun cs => by simp)
  simpa [Command.get_name] using this

/-! ## Line-level lemmas for the codec claims -/

/-- `l` contains no adjacent CRLF pair (so a trailing `\r\n` is the
first one `get_line` finds). -/
def noCRLF : List Nat → Bool
  | a :: b :: t => !(decide (a = 13) && decide (b = 10)) && noCRLF (b :: t)
  | _ => true

theorem splitLine_of_noCRLF : ∀ (xs rest : List Nat), noCRLF xs = true →
    splitLine (xs ++ 13 :: 10 :: rest) = some (xs, rest) := by
  intro xs
  induction xs with
  | nil =>
    intro rest _
    rw [List.nil_append, splitLine, if_pos ⟨rfl, rfl⟩]
  | cons a t ih =>
    intro rest hno
    cases t with
    | nil =>
      show splitLine (a :: 13 :: 10 :: rest) = some ([a], rest)
      rw [splitLine, if_neg (by omega)]
      have h0 : splitLine (13 :: 10 :: rest) = some ([], rest) := by
        rw [splitLine, if_pos ⟨rfl, rfl⟩]
      rw [h0]
    | cons b t2 =>
      rw [noCRLF] at hno
      simp only [Bool.and_eq_true, Bool.not_eq_true', Bool.and_eq_false_iff,
        decide_eq_false_iff_not, decide_eq_true_eq] at hno
      obtain ⟨hab, hrest⟩ := hno
      show splitLine (a :: b :: (t2 ++ 13 :: 10 :: rest)) = some (a :: b :: t2, rest)
      rw [splitLine, if_neg (by
        intro hh
        rcases hab with h | h
        · exact h hh.1
        · exact h hh.2)]
      have hr := ih rest hrest
      rw [List.cons_append] at hr
      rw [hr]

theorem noCRLF_of_no13 : ∀ {l : List Nat}, (∀ b ∈ l, b ≠ 13) → noCRLF l = true := by
  intro l
  induction l with
  | nil => intro _; rfl
  | cons a t ih =>
    intro h
    cases t with
    | nil => rfl
    | cons b t2 =>
      rw [noCRLF]
      simp only [Bool.and_eq_true, Bool.not_eq_true', Bool.and_eq_false_iff,
        decide_eq_false_iff_not]
      exact ⟨Or.inl (h a (List.mem_cons_self ..)),
        ih fun x hx => h x (List.mem_cons_of_mem _ hx)⟩

/-- `Frame::parse` on a `:`-typed buffer is `get_decimal` wrapped as an
`Integer` frame. -/
theorem parse_colon (s : List Nat) :
    Frame.parse (58 :: s) =
      (get_decimal s).map (fun p => (Frame.integer p.1, p.2)) := by
  rw [Frame.parse, parseAux]
  norm_num
  split
  · rename_i num r heq
    conv_rhs => rw [heq]
    rfl
  · rename_i e heq
    conv_rhs => rw [heq]
    rfl

/-- `Frame::check` on a `:`-typed buffer is `get_decimal`, keeping the
remainder. -/
theorem check_colon (s : List Nat) :
    Frame.check (58 :: s) = (get_decimal s).map (fun p => p.2) := by
  rw [Frame.check, checkAux]
  norm_num
  split
  · rename_i num r heq
    conv_rhs => rw [heq]
    rfl
  · rename_i e heq
    conv_rhs => rw [heq]
    rfl

/-- C8: decoding a `:`-typed line.  With `body` the bytes before the
terminating CRLF (no CRLF inside), both phases of the decoder —
`Frame::check` and `Frame::parse` — succeed, `parse` yielding
`Integer(n)` with `n` the decimal value of `body`, exactly when `body`
is a non-empty all-digit sequence whose value fits a `u64`; any other
body makes both phases fail with the (connection-terminating)
`Parse` protocol error from `get_decimal`, never yielding a frame. -/
theorem c8_integer_line_decoding (body rest : List Nat) (hno : noCRLF body = true) :
    (body ≠ [] ∧ body.all isDigit = true ∧ decVal body < 2 ^ 64 →
      Frame.parse (58 :: (body ++ 13 :: 10 :: rest)) = .ok (.integer (decVal body), rest) ∧
      Frame.check (58 :: (body ++ 13 :: 10 :: rest)) = .ok rest) ∧
    (¬(body ≠ [] ∧ body.all isDigit = true ∧ decVal body < 2 ^ 64) →
      Frame.parse (58 :: (body ++ 13 :: 10 :: rest)) =
        .error (.Parse "protocol error; invalid frame format to get decimal") ∧
      Frame.check (58 :: (body ++ 13 :: 10 :: rest)) =
        .error (.Parse "protocol error; invalid frame format to get decimal")) := by
  have hline : get_line (body ++ 13 :: 10 :: rest) = .ok (body, rest) := by
    rw [get_line, splitLine_of_noCRLF _ _ hno]
  constructor
  · intro ⟨hne, hdig, hlt⟩
    have hat : atoiU64 body = some (decVal body) := by
      unfold atoiU64
      rw [if_pos ⟨hne, hdig, hlt⟩]
    have hdec : get_decimal (body ++ 13 :: 10 :: rest) = .ok (decVal body, rest) := by
      simp only [get_decimal, hline, hat]
    rw [parse_colon, check_colon, hdec]
    exact ⟨rfl, rfl⟩
  · intro hbad
    have hat : atoiU64 body = none := by
      unfold atoiU64
      rw [if_neg (by intro hh; exact hbad ⟨hh.1, hh.2.1, hh.2.2⟩)]
    have hdec : get_decimal (body ++ 13 :: 10 :: rest) =
        .error (.Parse "protocol error; invalid frame format to get decimal") := by
      simp only [get_decimal, hline, hat]
    rw [parse_colon, check_colon, hdec]
    exact ⟨rfl, rfl⟩

/-- Witness for C8: the line `:42\r\n` decodes to `Integer 42` and the
line `:4a\r\n` is a protocol error for both decoder phases. -/
theorem c8_witness :
    Frame.parse [58, 52, 50, 13, 10] = .ok (.integer 42, []) ∧
    Frame.check [58, 52, 97, 13, 10] =
      .error (.Parse "protocol error; invalid frame format to get decimal") := by
  have h1 := (c8_integer_line_decoding [52, 50] [] (by decide)).1
    ⟨by decide, by decide, by decide⟩
  have h2 := (c8_integer_line_decoding [52, 97] [] (by decide)).2
    (by decide)
  exact ⟨h1.1, h2.2⟩

/-! ## Decimal formatting lemmas (the `write_decimal` / `get_decimal`
round trip) -/

theorem digitsRev_all_digit : ∀ v, ∀ b ∈ digitsRev v, 48 ≤ b ∧ b ≤ 57 := by
  intro v
  induction v using Nat.strong_induction_on with
  | _ v ih =>
    intro b hb
    rw [digitsRev] at hb
    split at hb
    · simp at hb
    · rename_i hv
      rcases List.mem_cons.mp hb with h | h
      · subst h
        have := Nat.mod_lt v (show 0 < 10 by norm_num)
        omega
      · exact ih (v / 10) (Nat.div_lt_self (Nat.pos_of_ne_zero hv) (by norm_num)) b h

theorem foldl_digitsRev : ∀ v acc,
    List.foldl (fun acc b => acc * 10 + (b - 48)) acc (digitsRev v).reverse =
      acc * 10 ^ (digitsRev v).length + v := by
  intro v
  induction v using Nat.strong_induction_on with
  | _ v ih =>
    intro acc
    rw [digitsRev]
    split
    · rename_i hv
      subst hv
      simp
    · rename_i hv
      have hlt : v / 10 < v := Nat.div_lt_self (Nat.pos_of_ne_zero hv) (by norm_num)
      rw [List.reverse_cons, List.foldl_append, ih (v / 10) hlt acc]
      simp only [List.foldl_cons, List.foldl_nil, List.length_cons]
      have hmod : v % 10 + 48 - 48 = v % 10 := by omega
      rw [hmod]
      have := Nat.div_add_mod v 10
      ring_nf
      omega

theorem natDecimal_spec (v : Nat) :
    natDecimal v ≠ [] ∧ (∀ b ∈ natDecimal v, 48 ≤ b ∧ b ≤ 57) ∧
      decVal (natDecimal v) = v := by
  rw [natDecimal]
  split
  · rename_i hv
    subst hv
    refine ⟨by simp, ?_, by simp [decVal]⟩
    intro b hb
    simp only [List.mem_singleton] at hb
    omega
  · rename_i hv
    refine ⟨?_, ?_, ?_⟩
    · rw [digitsRev]
      rw [if_neg hv]
      simp
    · intro b hb
      exact digitsRev_all_digit v b (List.mem_reverse.mp hb)
    · rw [decVal, foldl_digitsRev]
      simp

theorem atoiU64_natDecimal {v : Nat} (hv : v < 2 ^ 64) :
    atoiU64 (natDecimal v) = some v := by
  obtain ⟨hne, hdig, hval⟩ := natDecimal_spec v
  have hall : (natDecimal v).all isDigit = true := by
    rw [List.all_eq_true]
    intro b hb
    have := hdig b hb
    simp only [isDigit, Bool.and_eq_true, decide_eq_true_eq]
    omega
  unfold atoiU64
  rw [if_pos ⟨hne, hall, by rw [hval]; exact hv⟩, hval]

theorem noCRLF_natDecimal (v : Nat) : noCRLF (natDecimal v) = true := by
  apply noCRLF_of_no13
  intro b hb
  have := (natDecimal_spec v).2.1 b hb
  omega

/-- `get_decimal` inverts `write_decimal` in front of any remainder. -/
theorem get_decimal_write_decimal {v : Nat} (hv : v < 2 ^ 64) (rest : List Nat) :
    get_decimal (write_decimal v ++ rest) = .ok (v, rest) := by
  have hline : get_line (natDecimal v ++ 13 :: 10 :: rest) = .ok (natDecimal v, rest) := by
    rw [get_line, splitLine_of_noCRLF _ _ (noCRLF_natDecimal v)]
  have harr : write_decimal v ++ rest = natDecimal v ++ 13 :: 10 :: rest := by
    rw [write_decimal]
    simp
  rw [harr]
  simp only [get_decimal, hline, atoiU64_natDecimal hv]

/-! ## Encode-then-decode (claim C2) -/

/-- The frames `write_value` supports, together with the representation
invariants Rust enforces on them: a `Simple`/`Error` payload is a Rust
`String`, hence valid UTF-8; `Integer` is a `u64`; a `Bulk` payload's
length fits a `u64`.  The extra `noCRLF` condition on `Simple`/`Error`
is the amendment of claim C2: the encoder writes the payload between
CRLF terminators without escaping, so a payload containing CRLF
re-parses as a shorter frame (see the counterexample). -/
def scalarEncodable : Frame → Prop
  | .simple s => validUtf8 s = true ∧ noCRLF s = true
  | .error s => validUtf8 s = true ∧ noCRLF s = true
  | .integer n => n < 2 ^ 64
  | .bulk b => b.length < 2 ^ 64
  | .null => True
  | .array _ => False

/-- The encoder-supported set of `write_frame` (claim C2, amended):
scalars, and one-level arrays of scalars. -/
def encodable : Frame → Prop
  | .array elems => elems.length < 2 ^ 64 ∧ ∀ c ∈ elems, scalarEncodable c
  | f => scalarEncodable f

theorem except_map_subtype_ok {p : α → Prop} {e : Except ε {x : α // p x}} {v : α}
    (h : e.map Subtype.val = .ok v) : ∃ hp : p v, e = .ok ⟨v, hp⟩ := by
  cases e with
  | ok a =>
    obtain ⟨val, hval⟩ := a
    simp only [Except.map, Except.ok.injEq] at h
    subst h
    exact ⟨hval, rfl⟩
  | error err => simp [Except.map] at h

theorem drop_append_plus (b X : List Nat) (i : Nat) :
    (b ++ X).drop (b.length + i) = X.drop i := by
  induction b with
  | nil => simp
  | cons a t ih =>
    simp only [List.cons_append, List.length_cons]
    rw [show t.length + 1 + i = (t.length + i) + 1 by omega, List.drop_succ_cons]
    exact ih

/-- `Frame::parse` inverts the `Simple` serialization. -/
theorem parse_simple_encode (str : Bytes) (hval : validUtf8 str = true)
    (hno : noCRLF str = true) (rest : List Nat) :
    Frame.parse (43 :: (str ++ 13 :: 10 :: rest)) = .ok (.simple str, rest) := by
  have hline : get_line (str ++ 13 :: 10 :: rest) = .ok (str, rest) := by
    rw [get_line, splitLine_of_noCRLF _ _ hno]
  rw [Frame.parse, parseAux]
  norm_num
  split
  · rename_i line r heq
    have h2 := hline.symm.trans heq
    simp only [Except.ok.injEq, Prod.mk.injEq] at h2
    obtain ⟨rfl, rfl⟩ := h2
    unfold fromUtf8
    rw [if_pos hval]
    rfl
  · rename_i e heq
    rw [hline] at heq
    exact absurd heq (by simp)

/-- `Frame::parse` inverts the `Error` serialization. -/
theorem parse_error_encode (str : Bytes) (hval : validUtf8 str = true)
    (hno : noCRLF str = true) (rest : List Nat) :
    Frame.parse (45 :: (str ++ 13 :: 10 :: rest)) = .ok (.error str, rest) := by
  have hline : get_line (str ++ 13 :: 10 :: rest) = .ok (str, rest) := by
    rw [get_line, splitLine_of_noCRLF _ _ hno]
  rw [Frame.parse, parseAux]
  norm_num
  split
  · rename_i line r heq
    have h2 := hline.symm.trans heq
    simp only [Except.ok.injEq, Prod.mk.injEq] at h2
    obtain ⟨rfl, rfl⟩ := h2
    unfold fromUtf8
    rw [if_pos hval]
    rfl
  · rename_i e heq
    rw [hline] at heq
    exact absurd heq (by simp)

/-- `Frame::parse` inverts the `Null` serialization. -/
theorem parse_null_encode (rest : List Nat) :
    Frame.parse (36 :: 45 :: 49 :: 13 :: 10 :: rest) = .ok (.null, rest) := by
  have hline : get_line (45 :: 49 :: 13 :: 10 :: rest) = .ok ([45, 49], rest) := by
    have := splitLine_of_noCRLF [45, 49] rest (by decide)
    rw [get_line]
    simp only [List.cons_append, List.nil_append] at this
    rw [this]
  rw [Frame.parse, parseAux]
  norm_num [peek_u8]
  split
  · rename_i line r heq
    have h2 := hline.symm.trans heq
    simp only [Except.ok.injEq, Prod.mk.injEq] at h2
    obtain ⟨rfl, rfl⟩ := h2
    rw [if_pos rfl]
    rfl
  · rename_i e heq
    rw [hline] at heq
    exact absurd heq (by simp)

/-- `Frame::parse` inverts the `Bulk` serialization. -/
theorem parse_bulk_encode (b : Bytes) (hb : b.length < 2 ^ 64) (rest : List Nat) :
    Frame.parse (36 :: (write_decimal b.length ++ (b ++ 13 :: 10 :: rest))) =
      .ok (.bulk b, rest) := by
  have hdec : get_decimal (write_decimal b.length ++ (b ++ 13 :: 10 :: rest)) =
      .ok (b.length, b ++ 13 :: 10 :: rest) := get_decimal_write_decimal hb _
  obtain ⟨hne, hdig, -⟩ := natDecimal_spec b.length
  rw [Frame.parse, parseAux]
  norm_num
  cases hnd : natDecimal b.length with
  | nil => exact absurd hnd hne
  | cons d tl =>
    have hd48 := hdig d (hnd ▸ List.mem_cons_self ..)
    have hS : write_decimal b.length ++ (b ++ 13 :: 10 :: rest) =
        d :: (tl ++ [13, 10] ++ (b ++ 13 :: 10 :: rest)) := by
      rw [write_decimal, hnd]
      simp
    rw [hS] at hdec ⊢
    simp only [peek_u8]
    rw [if_neg (show d ≠ 45 by omega)]
    split
    · rename_i len r1 heq
      have h2 := hdec.symm.trans heq
      simp only [Except.ok.injEq, Prod.mk.injEq] at h2
      obtain ⟨rfl, rfl⟩ := h2
      have hlen2 : ¬ (b ++ 13 :: 10 :: rest).length < b.length + 2 := by
        simp only [List.length_append, List.length_cons]
        omega
      rw [dif_neg hlen2]
      have htake : (b ++ 13 :: 10 :: rest).take b.length = b :=
        List.take_left b (13 :: 10 :: rest)
      have hdrop : (b ++ 13 :: 10 :: rest).drop (b.length + 2) = rest := by
        rw [drop_append_plus]
        rfl
      simp only [Except.map, htake, hdrop]
    · rename_i e heq
      rw [hdec] at heq
      exact absurd heq (by simp)

/-- `Frame::parse` inverts the `Integer` serialization. -/
theorem parse_integer_encode {v : Nat} (hv : v < 2 ^ 64) (rest : List Nat) :
    Frame.parse (58 :: (write_decimal v ++ rest)) = .ok (.integer v, rest) := by
  rw [parse_colon, get_decimal_write_decimal hv]
  rfl

/-- One scalar frame round-trips through `write_value` and
`Frame::parse` in front of any remainder. -/
theorem write_value_roundtrip (f : Frame) (hf : scalarEncodable f) :
    ∃ out, write_value f = .ok out ∧
      ∀ rest, Frame.parse (out ++ rest) = .ok (f, rest) := by
  cases f with
  | simple s =>
    obtain ⟨hval, hno⟩ := hf
    refine ⟨43 :: (s ++ [13, 10]), rfl, ?_⟩
    intro rest
    have harr : (43 :: (s ++ [13, 10])) ++ rest = 43 :: (s ++ 13 :: 10 :: rest) := by simp
    rw [harr]
    exact parse_simple_encode s hval hno rest
  | error s =>
    obtain ⟨hval, hno⟩ := hf
    refine ⟨45 :: (s ++ [13, 10]), rfl, ?_⟩
    intro rest
    have harr : (45 :: (s ++ [13, 10])) ++ rest = 45 :: (s ++ 13 :: 10 :: rest) := by simp
    rw [harr]
    exact parse_error_encode s hval hno rest
  | integer v =>
    refine ⟨58 :: write_decimal v, rfl, ?_⟩
    intro rest
    have harr : (58 :: write_decimal v) ++ rest = 58 :: (write_decimal v ++ rest) := by simp
    rw [harr]
    exact parse_integer_encode hf rest
  | bulk b =>
    refine ⟨36 :: (write_decimal b.length ++ b ++ [13, 10]), rfl, ?_⟩
    intro rest
    have harr : (36 :: (write_decimal b.length ++ b ++ [13, 10])) ++ rest =
        36 :: (write_decimal b.length ++ (b ++ 13 :: 10 :: rest)) := by simp
    rw [harr]
    exact parse_bulk_encode b hf rest
  | null =>
    refine ⟨[36, 45, 49, 13, 10], rfl, ?_⟩
    intro rest
    exact parse_null_encode rest
  | array elems => exact absurd hf (by simp [scalarEncodable])

/-- The serialized elements of an array re-parse one after the other. -/
theorem parseMany_encode (elems : List Frame) (h : ∀ c ∈ elems, scalarEncodable c)
    (rest : List Nat) :
    ∃ outs, elems.mapM write_value = .ok outs ∧
      (parseManyAux elems.length (outs.flatten ++ rest)).map Subtype.val =
        .ok (elems, rest) := by
  induction elems with
  | nil =>
    refine ⟨[], rfl, ?_⟩
    simp only [List.length_nil, List.flatten_nil, List.nil_append, parseManyAux]
    rfl
  | cons c cs ih =>
    obtain ⟨out, hout, hparse⟩ := write_value_roundtrip c (h c (List.mem_cons_self ..))
    obtain ⟨outs, houts, hmany⟩ := ih fun x hx => h x (List.mem_cons_of_mem _ hx)
    refine ⟨out :: outs, ?_, ?_⟩
    · rw [List.mapM_cons, hout, houts]
      rfl
    · have harr : (out :: outs).flatten ++ rest = out ++ (outs.flatten ++ rest) := by
        simp
      rw [harr]
      obtain ⟨hp1, hpa⟩ := except_map_subtype_ok
        (hparse (outs.flatten ++ rest) :
          (parseAux (out ++ (outs.flatten ++ rest))).map Subtype.val = _)
      obtain ⟨hp2, hma⟩ := except_map_subtype_ok hmany
      simp only [List.length_cons, parseManyAux, hpa, hma]
      rfl

/-- C2 (amended): on the encoder-supported set — `Simple`, `Error`,
`Integer`, `Bulk`, `Null` and one-level arrays of those, with
`Simple`/`Error` payloads free of CRLF — serializing with `write_frame`
and re-parsing with `Frame::parse` returns the original frame and
consumes the entire output. -/
theorem c2_encode_then_decode (f : Frame) (hf : encodable f) :
    ∃ out, write_frame f = .ok out ∧ Frame.parse out = .ok (f, []) := by
  cases f with
  | array elems =>
    obtain ⟨hlen, hc⟩ := hf
    obtain ⟨outs, houts, hmany⟩ := parseMany_encode elems hc []
    refine ⟨42 :: (write_decimal elems.length ++ outs.flatten), ?_, ?_⟩
    · rw [write_frame, houts]
    · have hdec : get_decimal (write_decimal elems.length ++ outs.flatten) =
          .ok (elems.length, outs.flatten) := by
        have := get_decimal_write_decimal hlen outs.flatten
        exact this
      rw [Frame.parse, parseAux]
      norm_num
      split
      · rename_i len r1 heq
        have h2 := hdec.symm.trans heq
        simp only [Except.ok.injEq, Prod.mk.injEq] at h2
        obtain ⟨rfl, rfl⟩ := h2
        rw [List.append_nil] at hmany
        obtain ⟨hp, hma⟩ := except_map_subtype_ok hmany
        rw [hma]
        rfl
      · rename_i e heq
        rw [hdec] at heq
        exact absurd heq (by simp)
  | simple s =>
    obtain ⟨out, hout, hparse⟩ := write_value_roundtrip (.simple s) hf
    exact ⟨out, hout, by simpa using hparse []⟩
  | error s =>
    obtain ⟨out, hout, hparse⟩ := write_value_roundtrip (.error s) hf
    exact ⟨out, hout, by simpa using hparse []⟩
  | integer v =>
    obtain ⟨out, hout, hparse⟩ := write_value_roundtrip (.integer v) hf
    exact ⟨out, hout, by simpa using hparse []⟩
  | bulk b =>
    obtain ⟨out, hout, hparse⟩ := write_value_roundtrip (.bulk b) hf
    exact ⟨out, hout, by simpa using hparse []⟩
  | null =>
    obtain ⟨out, hout, hparse⟩ := write_value_roundtrip .null hf
    exact ⟨out, hout, by simpa using hparse []⟩

/-- Counterexample to C2 as stated: `Frame::Simple("\r\n")` is a frame
of the encoder-supported set (a legal Rust string, no restriction in
the claim), but its serialization `+\r\n\r\n` re-parses as
`Simple("")` with two bytes left over — encode-then-decode is not the
identity on it. -/
theorem c2_counterexample :
    write_frame (.simple [13, 10]) = .ok [43, 13, 10, 13, 10] ∧
    Frame.parse [43, 13, 10, 13, 10] = .ok (.simple [], [13, 10]) := by
  constructor
  · rfl
  · have := parse_simple_encode [] (by rw [validUtf8]) (by decide) [13, 10]
    simpa using this

/-- Witness for C2: the array `["subscribe", Integer 1, Null]` (one-level,
scalar children) round-trips. -/
theorem c2_witness :
    ∃ out, write_frame (.array [.bulk [104, 105], .integer 1, .null]) = .ok out ∧
      Frame.parse out = .ok (.array [.bulk [104, 105], .integer 1, .null], []) := by
  apply c2_encode_then_decode
  refine ⟨by norm_num, ?_⟩
  intro c hc
  simp only [List.mem_cons, List.not_mem_nil, or_false] at hc
  rcases hc with rfl | rfl | rfl <;> norm_num [scalarEncodable]

/-! ## Check/parse agreement (claim C1)

`Connection::parse_frame` first runs `Frame::check`, records the cursor
position `len`, rewinds, runs `Frame::parse`, and discards `len` bytes.
The claim that a successful `check` guarantees a successful `parse` is
refuted below (`c1_counterexample`): `check` validates neither the
UTF-8 of `+`/`-` lines nor the exact `-1` of a `$-` null bulk.  What
does hold — and what makes `read_frame` consume exactly the parsed
frame's bytes — is that whenever both phases succeed they leave the
cursor at the same position. -/

/-- Position agreement of one `checkManyAux` / `parseManyAux` loop,
given agreement for every buffer of length at most `n`. -/
theorem many_agree (n : Nat)
    (H : ∀ u, u.length ≤ n → ∀ r f r', Frame.check u = .ok r →
      Frame.parse u = .ok (f, r') → r' = r) :
    ∀ len t, t.length ≤ n → ∀ rc pp, checkManyAux len t = .ok rc →
      parseManyAux len t = .ok pp → pp.val.2 = rc.val := by
  intro len
  induction len with
  | zero =>
    intro t ht rc pp hc hp
    rw [checkManyAux] at hc
    rw [parseManyAux] at hp
    obtain rfl := Except.ok.inj hc
    obtain rfl := Except.ok.inj hp
    rfl
  | succ len ih =>
    intro t ht rc pp hc hp
    rw [checkManyAux] at hc
    rw [parseManyAux] at hp
    split at hc
    · rename_i t1 hlt1 hca
      split at hp
      · rename_i f t1p hltp hpa
        have ht1 : t1p = t1 := by
          apply H t ht t1 f
          · rw [Frame.check, hca]
            rfl
          · rw [Frame.parse, hpa]
            rfl
        subst ht1
        split at hc
        · rename_i rr hrr hcm
          split at hp
          · rename_i fs rp hrp hpm
            obtain rfl := Except.ok.inj hc
            obtain rfl := Except.ok.inj hp
            exact ih t1p (by omega) _ _ hcm hpm
          · exact absurd hp (by simp)
        · exact absurd hc (by simp)
      · exact absurd hp (by simp)
    · exact absurd hc (by simp)

/-- Position agreement for one frame, given it for every inner loop on
a strictly shorter buffer. -/
theorem step_agree (s : List Nat)
    (Hmany : ∀ len t, t.length < s.length → ∀ rc pp, checkManyAux len t = .ok rc →
      parseManyAux len t = .ok pp → pp.val.2 = rc.val) :
    ∀ r f r', Frame.check s = .ok r → Frame.parse s = .ok (f, r') → r' = r := by
  intro r f r' hc hp
  match s, Hmany with
  | [], _ =>
    rw [Frame.check, checkAux] at hc
    simp [Except.map] at hc
  | b :: rest, Hmany =>
  rw [Frame.check, checkAux] at hc
  rw [Frame.parse, parseAux] at hp
  by_cases h43 : b = 43
  · subst h43
    norm_num at hc hp
    split at hc
    · rename_i line0 r0 hgl
      split at hp
      · rename_i line1 r1 hgl2
        have heq := hgl.symm.trans hgl2
        simp only [Except.ok.injEq, Prod.mk.injEq] at heq
        obtain ⟨rfl, rfl⟩ := heq
        split at hp
        · have hcv : r0 = r := Except.ok.inj hc
          have hpv : r0 = r' := congrArg Prod.snd (Except.ok.inj hp)
          exact hpv ▸ hcv
        · simp [Except.map] at hp
      · simp [Except.map] at hp
    · simp [Except.map] at hc
  · rw [if_neg h43] at hc hp
    by_cases h45 : b = 45
    · subst h45
      norm_num at hc hp
      split at hc
      · rename_i line0 r0 hgl
        split at hp
        · rename_i line1 r1 hgl2
          have heq := hgl.symm.trans hgl2
          simp only [Except.ok.injEq, Prod.mk.injEq] at heq
          obtain ⟨rfl, rfl⟩ := heq
          split at hp
          · have hcv : r0 = r := Except.ok.inj hc
            have hpv : r0 = r' := congrArg Prod.snd (Except.ok.inj hp)
            exact hpv ▸ hcv
          · simp [Except.map] at hp
        · simp [Except.map] at hp
      · simp [Except.map] at hc
    · rw [if_neg h45] at hc hp
      by_cases h58 : b = 58
      · subst h58
        norm_num at hc hp
        split at hc
        · rename_i v0 r0 hgd
          split at hp
          · rename_i v1 r1 hgd2
            have heq := hgd.symm.trans hgd2
            simp only [Except.ok.injEq, Prod.mk.injEq] at heq
            obtain ⟨rfl, rfl⟩ := heq
            have hcv : r0 = r := Except.ok.inj hc
            have hpv : r0 = r' := congrArg Prod.snd (Except.ok.inj hp)
            exact hpv ▸ hcv
          · simp [Except.map] at hp
        · simp [Except.map] at hc
      · rw [if_neg h58] at hc hp
        by_cases h36 : b = 36
        · subst h36
          norm_num at hc hp
          split at hc
          · simp [Except.map] at hc
          · rename_i pb hpk
            split at hp
            · simp [Except.map] at hp
            · rename_i pb2 hpk2
              have hpbeq : pb2 = pb := Except.ok.inj (hpk2.symm.trans hpk)
              rw [hpbeq] at hp
              by_cases hpb : pb = 45
              · rw [if_pos hpb] at hc hp
                split at hc
                · rename_i r0 hsk
                  split at hp
                  · rename_i line1 r1 hgl
                    split at hp
                    · rename_i hline
                      have hsp : splitLine rest = some (line1, r1) := by
                        rw [get_line] at hgl
                        cases hsp2 : splitLine rest with
                        | none => rw [hsp2] at hgl; simp at hgl
                        | some p =>
                          rw [hsp2] at hgl
                          obtain rfl := Except.ok.inj hgl
                          rfl
                      have hrest := splitLine_spec hsp
                      subst hline
                      obtain ⟨-, hdrop⟩ := skip_length hsk
                      have hcv : r0 = r := Except.ok.inj hc
                      have hpv : r1 = r' := congrArg Prod.snd (Except.ok.inj hp)
                      have hr0 : r0 = r1 := by
                        rw [hdrop, hrest]
                        rfl
                      rw [← hpv, ← hr0, hcv]
                    · simp [Except.map] at hp
                  · simp [Except.map] at hp
                · simp [Except.map] at hc
              · rw [if_neg hpb] at hc hp
                split at hc
                · rename_i len0 r0 hgd
                  split at hc
                  · rename_i r2 hsk
                    split at hp
                    · rename_i len1 r1 hgd2
                      have heq := hgd.symm.trans hgd2
                      simp only [Except.ok.injEq, Prod.mk.injEq] at heq
                      obtain ⟨rfl, rfl⟩ := heq
                      split at hp
                      · simp [Except.map] at hp
                      · have hcv : r2 = r := Except.ok.inj hc
                        have hpv : r0.drop (len0 + 2) = r' :=
                          congrArg Prod.snd (Except.ok.inj hp)
                        obtain ⟨-, hdrop⟩ := skip_length hsk
                        rw [← hpv, ← hdrop, hcv]
                    · simp [Except.map] at hp
                  · simp [Except.map] at hc
                · simp [Except.map] at hc
        · by_cases h42 : b = 42
          · subst h42
            norm_num at hc hp
            split at hc
            · rename_i len0 r0 hgd
              split at hc
              · rename_i r2 hr2 hcm
                split at hp
                · rename_i len1 r1 hgd2
                  have heq := hgd.symm.trans hgd2
                  simp only [Except.ok.injEq, Prod.mk.injEq] at heq
                  obtain ⟨rfl, rfl⟩ := heq
                  split at hp
                  · rename_i elems rp hrp hpm
                    have hcv : r2 = r := Except.ok.inj hc
                    have hpv : rp = r' := congrArg Prod.snd (Except.ok.inj hp)
                    have hbound : r0.length < (42 :: rest).length := by
                      have := get_decimal_length hgd
                      simp only [List.length_cons]
                      omega
                    have hmm : rp = r2 := Hmany len0 r0 hbound _ _ hcm hpm
                    rw [← hpv, hmm, hcv]
                  · simp [Except.map] at hp
                · simp [Except.map] at hp
              · simp [Except.map] at hc
            · simp [Except.map] at hc
          · rw [if_neg h36, if_neg h42] at hc
            simp [Except.map] at hc

/-- C1 (amended): if `Frame::check` succeeds leaving the cursor at
`end_position` (here: the remaining suffix `r`) and `Frame::parse` from
position 0 on the same bytes also succeeds, then `parse` leaves the
cursor at exactly that `end_position` — so every successful
`read_frame` consumes exactly the bytes of the parsed frame.  (`parse`
may fail where `check` succeeded: see the counterexample.) -/
theorem c1_check_parse_agree (s : List Nat) (r : List Nat)
    (hc : Frame.check s = .ok r) (f : Frame) (r' : List Nat)
    (hp : Frame.parse s = .ok (f, r')) : r' = r := by
  suffices h : ∀ n u, u.length ≤ n → ∀ rr ff rr', Frame.check u = .ok rr →
      Frame.parse u = .ok (ff, rr') → rr' = rr by
    exact h s.length s (le_refl _) r f r' hc hp
  intro n
  induction n with
  | zero =>
    intro u hu rr ff rr' hcc hpp
    have hnil : u = [] := List.length_eq_zero.mp (Nat.le_zero.mp hu)
    subst hnil
    rw [Frame.check, checkAux] at hcc
    exact absurd hcc (by simp [Except.map])
  | succ n ihn =>
    intro u hu
    apply step_agree u
    intro len t htl
    apply many_agree n ihn len t
    omega

/-- Counterexample to C1 as stated: on the bytes `+\xFF\r\n` the
checker succeeds consuming the whole buffer (it only scans for CRLF),
but the parser fails — `String::from_utf8` rejects the byte 255 — so
check-success does not imply parse-success. -/
theorem c1_counterexample :
    Frame.check [43, 255, 13, 10] = .ok [] ∧
    (Frame.parse [43, 255, 13, 10]).isOk = false := by
  constructor
  · simp [Frame.check, checkAux, get_line, splitLine, Except.map]
  · simp [Frame.parse, parseAux, get_line, splitLine, fromUtf8, validUtf8, byteRange,
      Except.map, Except.isOk, Except.toBool]

/-- Witness for C1 at the buffer `+OK\r\n`: both phases succeed and
agree on the final cursor. -/
theorem c1_witness :
    Frame.check [43, 79, 75, 13, 10] = .ok [] ∧
    Frame.parse [43, 79, 75, 13, 10] = .ok (.simple [79, 75], []) ∧
    ([] : List Nat) = [] := by
  have hc : Frame.check [43, 79, 75, 13, 10] = .ok [] := by
    simp [Frame.check, checkAux, get_line, splitLine, Except.map]
  have hp : Frame.parse [43, 79, 75, 13, 10] = .ok (.simple [79, 75], []) := by
    simp [Frame.parse, parseAux, get_line, splitLine, fromUtf8, validUtf8, Except.map]
  exact ⟨hc, hp, c1_check_parse_agree _ _ hc _ _ hp⟩

/-! ## The expiration sweep (claims C4 and C5) -/

/-- What one run of the `while let` loop of `purge_expired_keys` does,
for a sorted index whose values are pairwise distinct over a key-nodup
entry map: it keeps exactly the index pairs with instant after `now`,
removes exactly the entries named by the dropped pairs, and reports the
head instant of what remains (necessarily after `now`). -/
theorem purgeLoop_spec (now : Nat) :
    ∀ (exps : List ((Nat × Nat) × String)) (entries : List (String × Entry)),
      exps.Pairwise (fun p q => lexLt p.1 q.1) →
      keysNodup entries →
      (∀ q ∈ exps, ∀ q' ∈ exps, q.2 = q'.2 → q = q') →
      (Store.purgeLoop now entries exps).2.1 =
          exps.filter (fun p => decide (now < p.1.1)) ∧
        (Store.purgeLoop now entries exps).1.Sublist entries ∧
        (∀ k, ((∃ p ∈ exps, p.1.1 ≤ now ∧ p.2 = k) →
            mapLookup k (Store.purgeLoop now entries exps).1 = none) ∧
          ((¬ ∃ p ∈ exps, p.1.1 ≤ now ∧ p.2 = k) →
            mapLookup k (Store.purgeLoop now entries exps).1 = mapLookup k entries)) ∧
        (Store.purgeLoop now entries exps).2.2 =
          (Store.purgeLoop now entries exps).2.1.head?.map (fun p => p.1.1) ∧
        (∀ w, (Store.purgeLoop now entries exps).2.2 = some w → now < w) := by
  intro exps
  induction exps with
  | nil =>
    intro entries hs hn hi
    rw [Store.purgeLoop]
    refine ⟨rfl, List.Sublist.refl _, ?_, rfl, ?_⟩
    · intro k
      refine ⟨?_, fun _ => rfl⟩
      rintro ⟨p, hp, -⟩
      simp at hp
    · intro w hw
      simp at hw
  | cons hd tl ih =>
    obtain ⟨⟨when, id⟩, key⟩ := hd
    intro entries hs hn hi
    rw [Store.purgeLoop]
    by_cases hnow : now < when
    · rw [if_pos hnow]
      have hall : ∀ q ∈ ((when, id), key) :: tl, decide (now < q.1.1) = true := by
        intro q hq
        rcases List.mem_cons.mp hq with h1 | h1
        · subst h1
          simpa using hnow
        · have hlt : lexLt (when, id) q.1 := (List.pairwise_cons.mp hs).1 q h1
          unfold lexLt at hlt
          simp only [decide_eq_true_eq]
          omega
      refine ⟨(List.filter_eq_self.mpr hall).symm, List.Sublist.refl _, ?_, rfl, ?_⟩
      · intro k
        constructor
        · rintro ⟨p, hp, hple, -⟩
          have := hall p hp
          simp only [decide_eq_true_eq] at this
          omega
        · intro _
          rfl
      · intro w hw
        obtain rfl := Option.some.inj hw
        exact hnow
    · rw [if_neg hnow]
      have hrm : mapRemove (when, id) (((when, id), key) :: tl) = tl := by
        simp [mapRemove]
      rw [hrm]
      obtain ⟨hfirst, hs'⟩ := List.pairwise_cons.mp hs
      have hn' : keysNodup (mapRemove key entries) := keysNodup_mapRemove hn key
      have hi' : ∀ q ∈ tl, ∀ q' ∈ tl, q.2 = q'.2 → q = q' := fun q hq q' hq' =>
        hi q (List.mem_cons_of_mem _ hq) q' (List.mem_cons_of_mem _ hq')
      obtain ⟨ih1, ih2, ih3, ih4, ih5⟩ := ih (mapRemove key entries) hs' hn' hi'
      have hfd : (((when, id), key) :: tl).filter (fun p => decide (now < p.1.1)) =
          tl.filter (fun p => decide (now < p.1.1)) := by
        simp [hnow]
      refine ⟨hfd ▸ ih1, ih2.trans (mapRemove_sublist key entries), ?_, ih4, ih5⟩
      intro k
      constructor
      · rintro ⟨p, hp, hple, hpk⟩
        rcases List.mem_cons.mp hp with h1 | h1
        · have hk : k = key := by
            rw [← hpk, h1]
          rw [hk]
          have hnone : ¬ ∃ p ∈ tl, p.1.1 ≤ now ∧ p.2 = key := by
            rintro ⟨q, hq, -, hqk⟩
            have hqeq := hi q (List.mem_cons_of_mem _ hq) (((when, id), key))
              (List.mem_cons_self ..) hqk
            have hne := ne_of_lexLt (hfirst q hq)
            exact hne (by rw [hqeq])
          rw [(ih3 key).2 hnone, mapLookup_mapRemove_self hn key]
        · exact (ih3 k).1 ⟨p, h1, hple, hpk⟩
      · intro hnex
        have hknek : k ≠ key := by
          intro hk
          exact hnex ⟨((when, id), key), List.mem_cons_self ..,
            Nat.le_of_not_lt hnow, hk.symm⟩
        have hnex' : ¬ ∃ p ∈ tl, p.1.1 ≤ now ∧ p.2 = k := by
          rintro ⟨p, hp, h1, h2⟩
          exact hnex ⟨p, List.mem_cons_of_mem _ hp, h1, h2⟩
        rw [(ih3 k).2 hnex', mapLookup_mapRemove_ne hknek]

/-- The value injectivity of the expiration index, derived from the
store invariant: two index elements naming the same key are equal. -/
theorem inv_exp_value_inj {s : Store} (hinv : s.Inv) :
    ∀ q ∈ s.expirations, ∀ q' ∈ s.expirations, q.2 = q'.2 → q = q' := by
  obtain ⟨-, -, -, hB, -⟩ := hinv
  intro q hq q' hq' hv
  obtain ⟨e, he, hid, hexp⟩ := hB q hq
  obtain ⟨e', he', hid', hexp'⟩ := hB q' hq'
  rw [hv] at he
  rw [he] at he'
  obtain rfl := Option.some.inj he'
  have h1 : q.1.1 = q'.1.1 := by
    rw [hexp] at hexp'
    exact Option.some.inj hexp'
  have h2 : q.1.2 = q'.1.2 := by rw [← hid, ← hid']
  obtain ⟨⟨qa, qb⟩, qc⟩ := q
  obtain ⟨⟨qa', qb'⟩, qc'⟩ := q'
  simp only at h1 h2 hv
  subst h1
  subst h2
  subst hv
  rfl

/-- C5: `purge_expired_keys` under the store invariant.  If shutdown is
set it returns `None` leaving the state untouched.  Otherwise it removes
from the index exactly the pairs with instant ≤ `now` (the filter
equation), removes from `entries` exactly the keys those pairs name
(the lookup characterization), and returns the minimum remaining
instant — the head of the still-sorted index — which is strictly after
`now`, or `None` when the index has emptied. -/
theorem c5_purge_expired_keys (s : Store) (now : Nat) (hinv : s.Inv) :
    (s.shutdown = true → Store.purge_expired_keys s now = (s, none)) ∧
    (s.shutdown = false →
      (Store.purge_expired_keys s now).1.entries.Sublist s.entries ∧
      (Store.purge_expired_keys s now).1.expirations =
        s.expirations.filter (fun p => decide (now < p.1.1)) ∧
      (∀ k, ((∃ p ∈ s.expirations, p.1.1 ≤ now ∧ p.2 = k) →
          mapLookup k (Store.purge_expired_keys s now).1.entries = none) ∧
        ((¬ ∃ p ∈ s.expirations, p.1.1 ≤ now ∧ p.2 = k) →
          mapLookup k (Store.purge_expired_keys s now).1.entries = mapLookup k s.entries)) ∧
      (Store.purge_expired_keys s now).2 =
        (Store.purge_expired_keys s now).1.expirations.head?.map (fun p => p.1.1) ∧
      (∀ w, (Store.purge_expired_keys s now).2 = some w → now < w)) := by
  constructor
  · intro hsd
    rw [Store.purge_expired_keys, if_pos hsd]
  · intro hsd
    have hnod := hinv.1
    have hsort := hinv.2.1
    have hinj := inv_exp_value_inj hinv
    obtain ⟨h1, h2, h3, h4, h5⟩ := purgeLoop_spec now s.expirations s.entries hsort hnod hinj
    have hP : Store.purge_expired_keys s now =
        (⟨(Store.purgeLoop now s.entries s.expirations).1, s.pub_sub,
          (Store.purgeLoop now s.entries s.expirations).2.1, s.next_id, s.shutdown⟩,
         (Store.purgeLoop now s.entries s.expirations).2.2) := by
      rw [Store.purge_expired_keys, if_neg (by rw [hsd]; simp)]
    rw [hP]
    exact ⟨h2, h1, h3, h1 ▸ h4, h5⟩

/-- Witness for C5: a store holding one entry whose deadline 5 has
passed by `now = 10`; the sweep empties both maps and returns `None`. -/
theorem c5_witness :
    mapLookup "a" (Store.purge_expired_keys
      ⟨[("a", ⟨0, [1], some 5⟩)], [], [((5, 0), "a")], 1, false⟩ 10).1.entries = none ∧
    (Store.purge_expired_keys
      ⟨[("a", ⟨0, [1], some 5⟩)], [], [((5, 0), "a")], 1, false⟩ 10).2 = none := by
  have hinv : Store.Inv ⟨[("a", ⟨0, [1], some 5⟩)], [], [((5, 0), "a")], 1, false⟩ := by
    refine ⟨?_, ?_, ?_, ?_, ?_⟩
    · simp [keysNodup]
    · simp [expSorted]
    · intro pe hpe t ht
      simp only [List.mem_singleton] at hpe
      subst hpe
      simp only [Entry.mk.injEq] at ht ⊢
      obtain rfl := Option.some.inj ht
      simp [mapLookup]
    · intro q hq
      simp only [List.mem_singleton] at hq
      subst hq
      exact ⟨⟨0, [1], some 5⟩, by simp [mapLookup], rfl, rfl⟩
    · intro pe hpe
      simp only [List.mem_singleton] at hpe
      subst hpe
      norm_num
  have h := (c5_purge_expired_keys _ 10 hinv).2 rfl
  constructor
  · exact (h.2.2.1 "a").1 ⟨((5, 0), "a"), by simp, by norm_num, rfl⟩
  · rw [h.2.2.2.1, h.2.1]
    simp

/-- Two stores sharing entries, expirations and next_id satisfy the
invariant together (the invariant never looks at pub_sub or shutdown). -/
theorem inv_components {s2 s : Store} (hinv : s.Inv)
    (he : s2.entries = s.entries) (hx : s2.expirations = s.expirations)
    (hn : s2.next_id = s.next_id) : s2.Inv := by
  unfold Store.Inv at hinv ⊢
  rw [he, hx, hn]
  exact hinv

/-- Invariant preservation core for `Store::set`: inserting the new
entry under the fresh id `next_id`, registering its optional deadline
in the index (`exps1`), and dropping the overwritten entry's stale
index pair (`exps2`) re-establishes the invariant. -/
theorem inv_set_core (s : Store) (hinv : s.Inv) (key : String) (value : Bytes)
    (eat : Option Nat) (exps1 exps2 : List ((Nat × Nat) × String))
    (h1 : (eat = none ∧ exps1 = s.expirations) ∨
      (∃ when, eat = some when ∧ exps1 = btInsert (when, s.next_id) key s.expirations))
    (h2 : (mapLookup key s.entries = none ∧ exps2 = exps1) ∨
      (∃ pe, mapLookup key s.entries = some pe ∧
        ((pe.expires_at = none ∧ exps2 = exps1) ∨
         (∃ w, pe.expires_at = some w ∧ exps2 = mapRemove (w, pe.id) exps1)))) :
    Store.Inv ⟨mapInsert key ⟨s.next_id, value, eat⟩ s.entries, s.pub_sub,
      exps2, s.next_id + 1, s.shutdown⟩ := by
  have hnod := hinv.1
  have hsort := hinv.2.1
  have hA := hinv.2.2.1
  have hB := hinv.2.2.2.1
  have hC := hinv.2.2.2.2
  have G1 : expSorted exps1 := by
    rcases h1 with ⟨-, rfl⟩ | ⟨hw, -, rfl⟩
    · exact hsort
    · exact expSorted_btInsert hsort _ _
  have G2 : ∀ q ∈ exps1,
      (∃ hw, eat = some hw ∧ q = ((hw, s.next_id), key)) ∨ q ∈ s.expirations := by
    rcases h1 with ⟨-, rfl⟩ | ⟨hw, heat, rfl⟩
    · exact fun q hq => Or.inr hq
    · intro q hq
      rcases mem_btInsert hq with h3 | h3
      · exact Or.inl ⟨hw, heat, h3⟩
      · exact Or.inr h3
  have G3 : ∀ kk : Nat × Nat, kk.2 ≠ s.next_id →
      mapLookup kk exps1 = mapLookup kk s.expirations := by
    rcases h1 with ⟨-, rfl⟩ | ⟨hw, -, rfl⟩
    · exact fun kk _ => rfl
    · intro kk hkk
      exact mapLookup_btInsert_ne (fun hh => hkk (by rw [hh])) _ _
  have G4 : ∀ hw, eat = some hw → mapLookup (hw, s.next_id) exps1 = some key := by
    rcases h1 with ⟨heat, rfl⟩ | ⟨hw0, heat, rfl⟩
    · intro hw hwe
      rw [heat] at hwe
      simp at hwe
    · intro hw hwe
      rw [heat] at hwe
      obtain rfl := Option.some.inj hwe
      exact mapLookup_btInsert_self _ _ _
  have F1 : exps2.Sublist exps1 := by
    rcases h2 with ⟨-, rfl⟩ | ⟨pe, -, ⟨-, rfl⟩ | ⟨w, -, rfl⟩⟩
    · exact List.Sublist.refl _
    · exact List.Sublist.refl _
    · exact mapRemove_sublist _ _
  have F2 : ∀ kk : Nat × Nat,
      (∀ pe, mapLookup key s.entries = some pe →
        ∀ w, pe.expires_at = some w → kk ≠ (w, pe.id)) →
      mapLookup kk exps2 = mapLookup kk exps1 := by
    rcases h2 with ⟨-, rfl⟩ | ⟨pe, hpe, ⟨-, rfl⟩ | ⟨w, hw, rfl⟩⟩
    · exact fun kk _ => rfl
    · exact fun kk _ => rfl
    · intro kk hkk
      exact mapLookup_mapRemove_ne (hkk pe hpe w hw)
  have F3 : ∀ q ∈ exps2, ∀ pe, mapLookup key s.entries = some pe →
      ∀ w, pe.expires_at = some w → q.1 ≠ (w, pe.id) := by
    rcases h2 with ⟨hnone, rfl⟩ | ⟨pe, hpe, ⟨hnoexp, rfl⟩ | ⟨w, hw, rfl⟩⟩
    · intro q hq pe hpe2
      rw [hnone] at hpe2
      simp at hpe2
    · intro q hq pe2 hpe2 w hw2
      rw [hpe] at hpe2
      obtain rfl := Option.some.inj hpe2
      rw [hnoexp] at hw2
      simp at hw2
    · intro q hq pe2 hpe2 w2 hw2
      rw [hpe] at hpe2
      obtain rfl := Option.some.inj hpe2
      rw [hw] at hw2
      obtain rfl := Option.some.inj hw2
      exact ne_of_mem_mapRemove (keysNodup_of_expSorted G1) hq
  refine ⟨keysNodup_mapInsert hnod _ _, List.Pairwise.sublist F1 G1, ?_, ?_, ?_⟩
  · intro pe2 hpe2 t ht
    rcases mem_mapInsert_strong hnod hpe2 with hnew | ⟨hold, hne⟩
    · subst hnew
      have heat : eat = some t := ht
      show mapLookup (t, s.next_id) exps2 = some key
      have hside : ∀ pe, mapLookup key s.entries = some pe →
          ∀ w, pe.expires_at = some w → ((t, s.next_id) : Nat × Nat) ≠ (w, pe.id) := by
        intro pe hpe w hw heq
        have hid : pe.id < s.next_id := hC (key, pe) (mapLookup_mem hpe)
        have hsn : s.next_id = pe.id := congrArg Prod.snd heq
        omega
      rw [F2 (t, s.next_id) hside, G4 t heat]
    · have hAe : mapLookup (t, pe2.2.id) s.expirations = some pe2.1 := hA pe2 hold t ht
      have hidlt : pe2.2.id < s.next_id := hC pe2 hold
      have hside : ∀ pe, mapLookup key s.entries = some pe →
          ∀ w, pe.expires_at = some w → ((t, pe2.2.id) : Nat × Nat) ≠ (w, pe.id) := by
        intro pe hpe w hw heq
        have hk : mapLookup (w, pe.id) s.expirations = some key :=
          hA (key, pe) (mapLookup_mem hpe) w hw
        rw [← heq] at hk
        rw [hAe] at hk
        exact hne (Option.some.inj hk)
      show mapLookup (t, pe2.2.id) exps2 = some pe2.1
      rw [F2 (t, pe2.2.id) hside, G3 (t, pe2.2.id) (Nat.ne_of_lt hidlt)]
      exact hAe
  · intro q hq
    have hq1 : q ∈ exps1 := F1.mem hq
    rcases G2 q hq1 with ⟨hw, heat, hqe⟩ | hqold
    · refine ⟨⟨s.next_id, value, eat⟩, ?_, ?_, ?_⟩
      · rw [hqe]
        exact mapLookup_mapInsert_self key _ _
      · rw [hqe]
      · rw [hqe, heat]
    · obtain ⟨e, he, hid, hexp⟩ := hB q hqold
      by_cases hqk : q.2 = key
      · rw [hqk] at he
        have hne3 := F3 q hq e he q.1.1 hexp
        exact absurd (by rw [hid]) hne3
      · refine ⟨e, ?_, hid, hexp⟩
        rw [mapLookup_mapInsert_ne hqk]
        exact he
  · intro pe2 hpe2
    rcases mem_mapInsert hpe2 with hnew | hold
    · show pe2.2.id < s.next_id + 1
      rw [hnew]
      exact Nat.lt_succ_self s.next_id
    · exact Nat.lt_succ_of_lt (hC pe2 hold)

/-- C4: the store invariant — distinct entry keys and a strictly sorted
expiration index, every entry with deadline `t` owning exactly one index
element `(t, id) → key`, every index element pointing back to an
existing entry with the matching id and deadline, and every live id
strictly below `next_id` — holds of `Store::new` and is preserved by
`set`, `del`, `subscribe`, `publish`, `purge_expired_keys` and
`set_shutdown`. -/
theorem c4_store_invariant (s : Store) (hinv : s.Inv) :
    Store.new.Inv ∧
    (∀ now key value expire, (Store.set s now key value expire).1.Inv) ∧
    (∀ key, (Store.del s key).1.Inv) ∧
    (∀ key, (Store.subscribe s key).Inv) ∧
    (∀ key value, (Store.publish s key value).1.Inv) ∧
    (∀ now, (Store.purge_expired_keys s now).1.Inv) ∧
    (∀ b, (Store.set_shutdown s b).Inv) := by
  have hnod := hinv.1
  have hsort := hinv.2.1
  have hA := hinv.2.2.1
  have hB := hinv.2.2.2.1
  have hC := hinv.2.2.2.2
  refine ⟨?_, ?_, ?_, ?_, ?_, ?_, ?_⟩
  · exact ⟨List.Pairwise.nil, List.Pairwise.nil,
      fun pe hpe => by simp [Store.new] at hpe,
      fun q hq => by simp [Store.new] at hq,
      fun pe hpe => by simp [Store.new] at hpe⟩
  · intro now key value expire
    rcases expire with _ | duration
    · rcases hprev : mapLookup key s.entries with _ | pe
      · have hgoal : (Store.set s now key value none).1 =
            ⟨mapInsert key ⟨s.next_id, value, none⟩ s.entries, s.pub_sub,
             s.expirations, s.next_id + 1, s.shutdown⟩ := by
          simp [Store.set, hprev]
        rw [hgoal]
        exact inv_set_core s hinv key value none s.expirations s.expirations
          (Or.inl ⟨rfl, rfl⟩) (Or.inl ⟨hprev, rfl⟩)
      · rcases hpe : pe.expires_at with _ | w
        · have hgoal : (Store.set s now key value none).1 =
              ⟨mapInsert key ⟨s.next_id, value, none⟩ s.entries, s.pub_sub,
               s.expirations, s.next_id + 1, s.shutdown⟩ := by
            simp [Store.set, hprev, hpe]
          rw [hgoal]
          exact inv_set_core s hinv key value none s.expirations s.expirations
            (Or.inl ⟨rfl, rfl⟩) (Or.inr ⟨pe, hprev, Or.inl ⟨hpe, rfl⟩⟩)
        · have hgoal : (Store.set s now key value none).1 =
              ⟨mapInsert key ⟨s.next_id, value, none⟩ s.entries, s.pub_sub,
               mapRemove (w, pe.id) s.expirations, s.next_id + 1, s.shutdown⟩ := by
            simp [Store.set, hprev, hpe]
          rw [hgoal]
          exact inv_set_core s hinv key value none s.expirations
            (mapRemove (w, pe.id) s.expirations)
            (Or.inl ⟨rfl, rfl⟩) (Or.inr ⟨pe, hprev, Or.inr ⟨w, hpe, rfl⟩⟩)
    · rcases hprev : mapLookup key s.entries with _ | pe
      · have hgoal : (Store.set s now key value (some duration)).1 =
            ⟨mapInsert key ⟨s.next_id, value, some (now + duration)⟩ s.entries, s.pub_sub,
             btInsert (now + duration, s.next_id) key s.expirations,
             s.next_id + 1, s.shutdown⟩ := by
          simp [Store.set, hprev]
        rw [hgoal]
        exact inv_set_core s hinv key value (some (now + duration))
          (btInsert (now + duration, s.next_id) key s.expirations)
          (btInsert (now + duration, s.next_id) key s.expirations)
          (Or.inr ⟨now + duration, rfl, rfl⟩) (Or.inl ⟨hprev, rfl⟩)
      · rcases hpe : pe.expires_at with _ | w
        · have hgoal : (Store.set s now key value (some duration)).1 =
              ⟨mapInsert key ⟨s.next_id, value, some (now + duration)⟩ s.entries, s.pub_sub,
               btInsert (now + duration, s.next_id) key s.expirations,
               s.next_id + 1, s.shutdown⟩ := by
            simp [Store.set, hprev, hpe]
          rw [hgoal]
          exact inv_set_core s hinv key value (some (now + duration))
            (btInsert (now + duration, s.next_id) key s.expirations)
            (btInsert (now + duration, s.next_id) key s.expirations)
            (Or.inr ⟨now + duration, rfl, rfl⟩) (Or.inr ⟨pe, hprev, Or.inl ⟨hpe, rfl⟩⟩)
        · have hgoal : (Store.set s now key value (some duration)).1 =
              ⟨mapInsert key ⟨s.next_id, value, some (now + duration)⟩ s.entries, s.pub_sub,
               mapRemove (w, pe.id)
                 (btInsert (now + duration, s.next_id) key s.expirations),
               s.next_id + 1, s.shutdown⟩ := by
            simp [Store.set, hprev, hpe]
          rw [hgoal]
          exact inv_set_core s hinv key value (some (now + duration))
            (btInsert (now + duration, s.next_id) key s.expirations)
            (mapRemove (w, pe.id)
              (btInsert (now + duration, s.next_id) key s.expirations))
            (Or.inr ⟨now + duration, rfl, rfl⟩) (Or.inr ⟨pe, hprev, Or.inr ⟨w, hpe, rfl⟩⟩)
  · intro key
    rcases hlk : mapLookup key s.entries with _ | entry
    · have h : (Store.del s key).1 = s := by
        simp [Store.del, hlk]
      rw [h]
      exact hinv
    · rcases hexp : entry.expires_at with _ | w
      · have h : (Store.del s key).1 =
            ⟨mapRemove key s.entries, s.pub_sub, s.expirations,
             s.next_id, s.shutdown⟩ := by
          simp [Store.del, hlk, hexp]
        rw [h]
        refine ⟨keysNodup_mapRemove hnod key, hsort, ?_, ?_, ?_⟩
        · intro pe2 hpe2 t ht
          exact hA pe2 (mem_of_mem_mapRemove hpe2) t ht
        · intro q hq
          obtain ⟨e, he, hid, hx⟩ := hB q hq
          have hqk : q.2 ≠ key := by
            intro hk
            rw [hk, hlk] at he
            obtain rfl := Option.some.inj he
            rw [hexp] at hx
            simp at hx
          refine ⟨e, ?_, hid, hx⟩
          rw [mapLookup_mapRemove_ne hqk]
          exact he
        · intro pe2 hpe2
          exact hC pe2 (mem_of_mem_mapRemove hpe2)
      · have h : (Store.del s key).1 =
            ⟨mapRemove key s.entries, s.pub_sub,
             mapRemove (w, entry.id) s.expirations, s.next_id, s.shutdown⟩ := by
          simp [Store.del, hlk, hexp]
        rw [h]
        refine ⟨keysNodup_mapRemove hnod key,
          List.Pairwise.sublist (mapRemove_sublist _ _) hsort, ?_, ?_, ?_⟩
        · intro pe2 hpe2 t ht
          have hold := mem_of_mem_mapRemove hpe2
          have hne := ne_of_mem_mapRemove hnod hpe2
          have hAe : mapLookup (t, pe2.2.id) s.expirations = some pe2.1 :=
            hA pe2 hold t ht
          have hkey : ((t, pe2.2.id) : Nat × Nat) ≠ (w, entry.id) := by
            intro heq
            have hk : mapLookup (w, entry.id) s.expirations = some key :=
              hA (key, entry) (mapLookup_mem hlk) w hexp
            rw [← heq] at hk
            rw [hAe] at hk
            exact hne (Option.some.inj hk)
          show mapLookup (t, pe2.2.id) (mapRemove (w, entry.id) s.expirations) =
            some pe2.1
          rw [mapLookup_mapRemove_ne hkey]
          exact hAe
        · intro q hq
          have hold := mem_of_mem_mapRemove hq
          have hne := ne_of_mem_mapRemove (keysNodup_of_expSorted hsort) hq
          obtain ⟨e, he, hid, hx⟩ := hB q hold
          have hqk : q.2 ≠ key := by
            intro hk
            rw [hk, hlk] at he
            obtain rfl := Option.some.inj he
            rw [hexp] at hx
            obtain hw := Option.some.inj hx
            refine hne ?_
            rw [hw, hid]
          refine ⟨e, ?_, hid, hx⟩
          rw [mapLookup_mapRemove_ne hqk]
          exact he
        · intro pe2 hpe2
          exact hC pe2 (mem_of_mem_mapRemove hpe2)
  · intro key
    have he : (Store.subscribe s key).entries = s.entries := by
      rcases hlk : mapLookup key s.pub_sub with _ | tx <;> simp [Store.subscribe, hlk]
    have hx : (Store.subscribe s key).expirations = s.expirations := by
      rcases hlk : mapLookup key s.pub_sub with _ | tx <;> simp [Store.subscribe, hlk]
    have hn : (Store.subscribe s key).next_id = s.next_id := by
      rcases hlk : mapLookup key s.pub_sub with _ | tx <;> simp [Store.subscribe, hlk]
    exact inv_components hinv he hx hn
  · intro key value
    have h : (Store.publish s key value).1 = s := by
      rcases hlk : mapLookup key s.pub_sub with _ | tx
      · simp [Store.publish, hlk]
      · rcases hsend : tx.send value with _ | n <;> simp [Store.publish, hlk, hsend]
    rw [h]
    exact hinv
  · intro now
    by_cases hsd : s.shutdown = true
    · have h : (Store.purge_expired_keys s now).1 = s := by
        rw [Store.purge_expired_keys, if_pos hsd]
      rw [h]
      exact hinv
    · have hinj := inv_exp_value_inj hinv
      obtain ⟨h1, h2, h3, h4, h5⟩ :=
        purgeLoop_spec now s.expirations s.entries hsort hnod hinj
      have hP : (Store.purge_expired_keys s now).1 =
          ⟨(Store.purgeLoop now s.entries s.expirations).1, s.pub_sub,
            (Store.purgeLoop now s.entries s.expirations).2.1,
            s.next_id, s.shutdown⟩ := by
        rw [Store.purge_expired_keys, if_neg hsd]
      rw [hP]
      have hnod2 : keysNodup (Store.purgeLoop now s.entries s.expirations).1 :=
        List.Pairwise.sublist h2 hnod
      refine ⟨hnod2, ?_, ?_, ?_, ?_⟩
      · rw [h1]
        exact List.Pairwise.sublist (List.filter_sublist _) hsort
      · intro pe2 hpe2 t ht
        have hold : pe2 ∈ s.entries := h2.mem hpe2
        have hAe : mapLookup (t, pe2.2.id) s.expirations = some pe2.1 :=
          hA pe2 hold t ht
        have hmem : ((t, pe2.2.id), pe2.1) ∈ s.expirations := mapLookup_mem hAe
        have hlt : now < t := by
          by_contra hnt
          have hnone := (h3 pe2.1).1
            ⟨((t, pe2.2.id), pe2.1), hmem, Nat.le_of_not_lt hnt, rfl⟩
          have hsome : mapLookup pe2.1 (Store.purgeLoop now s.entries s.expirations).1 =
              some pe2.2 :=
            mapLookup_eq_some_of_mem hnod2 hpe2
          rw [hnone] at hsome
          simp at hsome
        show mapLookup (t, pe2.2.id) (Store.purgeLoop now s.entries s.expirations).2.1 =
          some pe2.1
        rw [h1]
        refine mapLookup_eq_some_of_mem
          (List.Pairwise.sublist (List.filter_sublist _) (keysNodup_of_expSorted hsort))
          (List.mem_filter.mpr ⟨hmem, ?_⟩)
        simp only [decide_eq_true_eq]
        exact hlt
      · intro q hq
        rw [h1] at hq
        obtain ⟨hqold, hqdec⟩ := List.mem_filter.mp hq
        have hlt : now < q.1.1 := by
          simpa using hqdec
        obtain ⟨e, he, hid, hx⟩ := hB q hqold
        refine ⟨e, ?_, hid, hx⟩
        have hnex : ¬ ∃ p ∈ s.expirations, p.1.1 ≤ now ∧ p.2 = q.2 := by
          rintro ⟨p, hp, hple, hpq⟩
          have := hinj p hp q hqold hpq
          rw [this] at hple
          omega
        rw [(h3 q.2).2 hnex]
        exact he
      · intro pe2 hpe2
        exact hC pe2 (h2.mem hpe2)
  · intro b
    exact inv_components hinv rfl rfl rfl

/-- Witness for C4: the empty store `Store::new` satisfies the
invariant, and so does the store obtained from it by a `set` of key
"a" with a deadline. -/
theorem c4_witness : (Store.set Store.new 0 "a" [1] (some 5)).1.Inv := by
  have hnew : Store.new.Inv :=
    ⟨List.Pairwise.nil, List.Pairwise.nil,
      fun pe hpe => by simp [Store.new] at hpe,
      fun q hq => by simp [Store.new] at hq,
      fun pe hpe => by simp [Store.new] at hpe⟩
  exact (c4_store_invariant Store.new hnew).2.1 0 "a" [1] (some 5)

end MiniRedis
